import Mathlib

/-!
# CSV column extraction (`parse.c`): a shallow embedding

The two scanners of `parse.c` read a file byte by byte. A file is the list of
the bytes that `fgetc` returns before `EOF`; a byte is a natural number, as
`fgetc` returns it in an `int`.

`strtod` belongs to the C library. It is a parameter of the embedding: it is
called on the field buffer after a zero byte has been stored at index
`current_len`, so its result is a function of the bytes in front of that zero
byte, and these bytes are the argument given to the parameter.

The embedding covers the path on which the file was opened and the
allocations succeeded. A negative row budget makes the allocation fail, so the
budget is a natural number.

Accesses outside an array are kept visible instead of being given a meaning of
their own: the indices at which `item` is assigned are listed by
`get_column_item_writes`, the writes of the multi-column scanner are kept as a
list with their row, which may be `-1`, and a read of `sorted` past its end
compares unequal to every column index. The scan itself goes on as if the
access had touched no other variable.
-/

namespace CsvParse

/-- The byte of the line feed, `'\n'`. -/
def NEWLINE : Nat := 10

/-- The macro `DELIMITER`, the byte of the comma. -/
def DELIMITER : Nat := 44

/-- The macro `QUOTATION`, the byte of the double quote. -/
def QUOTATION : Nat := 34

/-- Capacity of the field buffers `item` and `temp`, in bytes. -/
def ITEM_SIZE : Nat := 256

/-! ## Single-column scanner: `get_column_of_doubles` -/

/-- Local variables of `get_column_of_doubles` that live across loop
iterations. `item` holds the bytes `item[0 .. current_len)`, so `current_len`
is `item.length`. -/
structure SingleState (V : Type) where
  ret : List V
  count : Nat
  item : List Nat
  current_col : Nat
  valid : Bool
deriving DecidableEq, Repr

/-- State at loop entry: `ret` comes from `calloc`, so it holds `length`
zeros. -/
def single_init (V : Type) [Zero V] (length : Nat) : SingleState V :=
  { ret := List.replicate length 0, count := 0, item := [], current_col := 0, valid := false }

/-- The `switch (c)` of `get_column_of_doubles` (lines 58-83). -/
def single_step {V : Type} (strtod : List Nat → V) (col : Int) (s : SingleState V) (c : Nat) :
    SingleState V :=
  if c = NEWLINE then
    if s.valid = true then
      { ret := s.ret.set s.count (strtod s.item), count := s.count + 1, item := [],
        current_col := 0, valid := true }
    else
      { s with valid := true, current_col := 0, item := [] }
  else if c = DELIMITER then
    { s with current_col := s.current_col + 1 }
  else if (s.current_col : Int) = col ∧ c ≠ QUOTATION ∧ s.item.length < ITEM_SIZE then
    { s with item := s.item ++ [c] }
  else
    s

/-- The `while` loop of `get_column_of_doubles` (lines 50-84): a byte is read,
and the function returns at once when `count == length`. -/
def single_loop {V : Type} (strtod : List Nat → V) (col : Int) (length : Nat) :
    SingleState V → List Nat → SingleState V
  | s, [] => s
  | s, c :: cs =>
    if s.count = length then s
    else single_loop strtod col length (single_step strtod col s c) cs

/-- Lines 86-91: the last record, when the input did not end the loop early. On
the early return of line 55 `count == length`, so this does nothing there. -/
def single_final {V : Type} (strtod : List Nat → V) (length : Nat) (s : SingleState V) :
    SingleState V :=
  if s.valid = true ∧ s.count < length then
    { s with ret := s.ret.set s.count (strtod s.item) }
  else
    s

/-- The function `get_column_of_doubles` on an opened file, with `calloc`
succeeding: the returned array. -/
def get_column_of_doubles {V : Type} [Zero V] (strtod : List Nat → V) (file : List Nat)
    (col : Int) (length : Nat) : List V :=
  (single_final strtod length
    (single_loop strtod col length (single_init V length) file)).ret

/-- Indices of `item` that one loop iteration assigns: the zero byte of line 63
and the field byte of line 80. -/
def single_item_writes {V : Type} (col : Int) (s : SingleState V) (c : Nat) : List Nat :=
  if c = NEWLINE then
    if s.valid = true then [s.item.length] else []
  else if c = DELIMITER then
    []
  else if (s.current_col : Int) = col ∧ c ≠ QUOTATION ∧ s.item.length < ITEM_SIZE then
    [s.item.length]
  else
    []

/-- Indices of `item` assigned during the loop, in order. -/
def single_loop_item_writes {V : Type} (strtod : List Nat → V) (col : Int) (length : Nat) :
    SingleState V → List Nat → List Nat
  | _, [] => []
  | s, c :: cs =>
    if s.count = length then []
    else single_item_writes col s c ++
      single_loop_item_writes strtod col length (single_step strtod col s c) cs

/-- Index of `item` assigned by line 89, if that line runs. -/
def single_final_item_writes {V : Type} (length : Nat) (s : SingleState V) : List Nat :=
  if s.valid = true ∧ s.count < length then [s.item.length] else []

/-- Every index of `item` that `get_column_of_doubles` assigns, in order. -/
def get_column_item_writes {V : Type} [Zero V] (strtod : List Nat → V) (file : List Nat)
    (col : Int) (length : Nat) : List Nat :=
  single_loop_item_writes strtod col length (single_init V length) file ++
    single_final_item_writes length (single_loop strtod col length (single_init V length) file)

/-! ## Sorting the request: `comp` and `qsort` -/

/-- Value of a mathematical integer stored in a 32-bit `int`
(two's complement). -/
def wrap32 (x : Int) : Int := (x + 2147483648) % 4294967296 - 2147483648

/-- The comparison function `comp` (lines 98-101): the difference of the two
`int` values, as an `int`. -/
def comp (a b : Int) : Int := wrap32 (a - b)

/-- Insertion of `x` into a list, in front of the first element that `comp`
does not place before `x`. -/
def comp_insert (x : Int) : List Int → List Int
  | [] => [x]
  | y :: ys => if comp x y ≤ 0 then x :: y :: ys else y :: comp_insert x ys

/-- The C library routine `qsort` called with `comp` (line 135), as an
insertion sort that asks `comp` for every order decision. -/
def qsort_comp (l : List Int) : List Int := l.foldr comp_insert []

/-! ## Multi-column scanner: `get_columns_of_doubles` -/

/-- One execution of `*(data[col_ptr] + line) = strtod(temp, NULL)`: the slot
`col_ptr`, the row `line` and the bytes of `temp` in front of the zero byte. -/
structure Write where
  slot : Nat
  row : Int
  text : List Nat
deriving DecidableEq, Repr

/-- Local variables of `get_columns_of_doubles` that live across loop
iterations. `temp` holds the bytes `temp[0 .. temp_len)`. The buffers `data`
are only written, never read, during the scan, so the state keeps the list of
the writes, first one first. -/
structure MultiState where
  line : Int
  temp : List Nat
  current_col : Nat
  col_ptr : Nat
  valid : Bool
  quote : Bool
  writes : List Write
deriving DecidableEq, Repr

/-- State at loop entry (lines 165-175). -/
def multi_init : MultiState :=
  { line := -1, temp := [], current_col := 0, col_ptr := 0, valid := false, quote := false,
    writes := [] }

/-- The block that the newline and delimiter cases share (lines 192-200 and
211-219): the column index is incremented, compared with `sorted[col_ptr]`,
the field is stored on a match, and `temp` is flushed. A read of `sorted`
past its end is taken to match nothing; the code compares with whatever lies
behind the array there, so the step is the step of the code only while
`col_ptr` is an index of `sorted` (the reads are listed by
`get_columns_sorted_reads`). -/
def multi_field_end (sorted : List Int) (s : MultiState) : MultiState :=
  if sorted[s.col_ptr]? = some ((s.current_col : Int) + 1) then
    { s with current_col := s.current_col + 1,
             writes := s.writes ++ [{ slot := s.col_ptr, row := s.line, text := s.temp }],
             col_ptr := s.col_ptr + 1, temp := [] }
  else
    { s with current_col := s.current_col + 1, temp := [] }

/-- The `switch (c)` of `get_columns_of_doubles` (lines 186-234). -/
def multi_step (sorted : List Int) (s : MultiState) (c : Nat) : MultiState :=
  if c = NEWLINE then
    let s1 := if s.quote = false ∧ s.valid = true then multi_field_end sorted s else s
    { s1 with line := s1.line + 1, current_col := 0, col_ptr := 0, valid := true }
  else if c = DELIMITER then
    if s.quote = false ∧ s.valid = true then multi_field_end sorted s else s
  else if c = QUOTATION then
    { s with quote := !s.quote }
  else if s.temp.length < ITEM_SIZE - 1 then
    { s with temp := s.temp ++ [c] }
  else
    s

/-- The `while` loop of `get_columns_of_doubles` (lines 178-235): a byte is
read, and the loop is left when `line == data_length`. -/
def multi_loop (sorted : List Int) (data_length : Nat) : MultiState → List Nat → MultiState
  | s, [] => s
  | s, c :: cs =>
    if s.line = (data_length : Int) then s
    else multi_loop sorted data_length (multi_step sorted s c) cs

/-- Lines 237-246: the final item. A read of `sorted` past its end is taken to
match nothing, as in `multi_field_end`. -/
def multi_final (sorted : List Int) (data_length : Nat) (s : MultiState) : MultiState :=
  if 0 < s.temp.length ∧ s.line < (data_length : Int) then
    if sorted[s.col_ptr]? = some ((s.current_col : Int) + 1) then
      { s with current_col := s.current_col + 1,
               writes := s.writes ++ [{ slot := s.col_ptr, row := s.line, text := s.temp }] }
    else
      { s with current_col := s.current_col + 1 }
  else
    s

/-- Scan of a whole file with the sorted request: loop, then final item. -/
def multi_scan (sorted : List Int) (data_length : Nat) (file : List Nat) : MultiState :=
  multi_final sorted data_length (multi_loop sorted data_length multi_init file)

/-- The writes that `get_columns_of_doubles` performs on a file, in order. -/
def get_columns_writes (file : List Nat) (col : List Int) (data_length : Nat) : List Write :=
  (multi_scan (qsort_comp col) data_length file).writes

/-- The buffers `data` after `malloc` (lines 138-161): `col_size` arrays of
`data_length` cells each. The content of a cell that was never assigned is not
determined by the program: it is `none`. -/
def alloc_data (V : Type) (col_size data_length : Nat) : List (List (Option V)) :=
  List.replicate col_size (List.replicate data_length none)

/-- Effect of one write on the buffers. A write whose row is not an index of
the buffer leaves the buffers as they are. -/
def apply_write {V : Type} (strtod : List Nat → V) (data : List (List (Option V))) (w : Write) :
    List (List (Option V)) :=
  if 0 ≤ w.row then
    data.modify (fun buf => buf.set w.row.toNat (some (strtod w.text))) w.slot
  else
    data

/-- Index of the first entry of `sorted` equal to `x`: the inner loop of the
unsort step (lines 262-269). -/
def find_sorted (x : Int) : List Int → Option Nat
  | [] => none
  | y :: ys => if y = x then some 0 else (find_sorted x ys).map (· + 1)

/-- The unsort step (lines 259-270): slot `i` of the returned table is the
buffer `data[j]` for the first `j` with `sorted[j] == col[i]`; a slot for which
no `j` is found is never assigned and is `none`. -/
def unsort {V : Type} (col sorted : List Int) (data : List (List (Option V))) :
    List (Option (List (Option V))) :=
  col.map (fun original_col => (find_sorted original_col sorted).bind (fun j => data[j]?))

/-- The table that `get_columns_of_doubles` builds on an opened file, with
every allocation succeeding. It carries no file-handle state and gives reads of
`sorted` past its end and writes outside a buffer the meaning described at
`multi_field_end` and `apply_write`: it is the value that the call returns
only on the inputs for which `get_columns_defined` holds, and
`get_columns_result` is the function with that restriction. -/
def get_columns_of_doubles {V : Type} (strtod : List Nat → V) (file : List Nat)
    (col : List Int) (data_length : Nat) : List (Option (List (Option V))) :=
  let sorted := qsort_comp col
  let data := (multi_scan sorted data_length file).writes.foldl (apply_write strtod)
    (alloc_data V col.length data_length)
  unsort col sorted data

/-! ## Files made of a header line and data rows -/

/-- Bytes of a row given by its fields: the fields with a comma between two
neighbours. -/
def row_bytes : List (List Nat) → List Nat
  | [] => []
  | [f] => f
  | f :: g :: fs => f ++ DELIMITER :: row_bytes (g :: fs)

/-- Bytes of a sequence of lines, each one followed by a line feed. -/
def lines_bytes : List (List Nat) → List Nat
  | [] => []
  | r :: rs => r ++ NEWLINE :: lines_bytes rs

/-- A file made of a header line and newline-terminated data rows. -/
def csv_file (header : List Nat) (rows : List (List Nat)) : List Nat :=
  header ++ NEWLINE :: lines_bytes rows

/-- A field of a row without quotes: no line feed, comma or quote byte. -/
def plain_field (f : List Nat) : Prop :=
  NEWLINE ∉ f ∧ DELIMITER ∉ f ∧ QUOTATION ∉ f

instance (f : List Nat) : Decidable (plain_field f) :=
  inferInstanceAs (Decidable (NEWLINE ∉ f ∧ DELIMITER ∉ f ∧ QUOTATION ∉ f))

/-- Bytes of the quoted field `"1,234"`: opening quote, `1`, comma, `2`, `3`,
`4`, closing quote. -/
def quoted_1234 : List Nat := [QUOTATION, 49, DELIMITER, 50, 51, 52, QUOTATION]

/-! ## The file handle of `get_columns_of_doubles` -/

/-- Whether the loop of `get_columns_of_doubles` is left through the `break`
of lines 180-184, which calls `fclose` first. -/
def multi_loop_breaks (sorted : List Int) (data_length : Nat) : MultiState → List Nat → Bool
  | _, [] => false
  | s, c :: cs =>
    if s.line = (data_length : Int) then true
    else multi_loop_breaks sorted data_length (multi_step sorted s c) cs

/-- What the three kinds of `malloc` calls of `get_columns_of_doubles` return:
whether the table `data` is obtained (line 138), the index of the first
buffer `data[i]` that is not obtained, if any (line 148), and whether the table
`unsorted` is obtained (line 249). -/
structure AllocOutcome where
  data_ok : Bool
  failing_buffer : Option Nat
  unsorted_ok : Bool
deriving DecidableEq, Repr

/-- Every allocation succeeds. -/
def alloc_all_ok : AllocOutcome :=
  { data_ok := true, failing_buffer := none, unsorted_ok := true }

/-- Number of `fclose(inputFile)` calls that one call of
`get_columns_of_doubles` makes after `fopen` has succeeded: none on the returns
of lines 142 and 159, one at the `break` of line 182, and one more at line 253
or at line 273. -/
def get_columns_fclose_calls (file : List Nat) (col : List Int) (data_length : Nat)
    (a : AllocOutcome) : Nat :=
  if a.data_ok = false then 0
  else if (match a.failing_buffer with | some i => decide (i < col.length) | none => false) = true
  then 0
  else
    (if multi_loop_breaks (qsort_comp col) data_length multi_init file = true then 1 else 0) +
      (if a.unsorted_ok = false then 1 else 1)

/-! ## Reads of `sorted` -/

/-- Indices at which one loop iteration reads `sorted` (lines 194 and 213). -/
def multi_step_reads (s : MultiState) (c : Nat) : List Nat :=
  if c = NEWLINE then
    if s.quote = false ∧ s.valid = true then [s.col_ptr] else []
  else if c = DELIMITER then
    if s.quote = false ∧ s.valid = true then [s.col_ptr] else []
  else
    []

/-- Indices at which the loop reads `sorted`, in order. -/
def multi_loop_reads (sorted : List Int) (data_length : Nat) : MultiState → List Nat → List Nat
  | _, [] => []
  | s, c :: cs =>
    if s.line = (data_length : Int) then []
    else multi_step_reads s c ++ multi_loop_reads sorted data_length (multi_step sorted s c) cs

/-- Index at which the final-item branch reads `sorted` (line 241), if it
runs. -/
def multi_final_reads (data_length : Nat) (s : MultiState) : List Nat :=
  if 0 < s.temp.length ∧ s.line < (data_length : Int) then [s.col_ptr] else []

/-- Every index at which `get_columns_of_doubles` reads `sorted` during the
scan, in order. -/
def get_columns_sorted_reads (file : List Nat) (col : List Int) (data_length : Nat) : List Nat :=
  multi_loop_reads (qsort_comp col) data_length multi_init file ++
    multi_final_reads data_length (multi_loop (qsort_comp col) data_length multi_init file)

/-! ## The text of a column, in the words of the specification -/

/-- The pieces of a row between its commas. -/
def split_fields : List Nat → List (List Nat)
  | [] => [[]]
  | c :: cs =>
    if c = DELIMITER then [] :: split_fields cs
    else (c :: (split_fields cs).headD []) :: (split_fields cs).tail

/-- Text of column `c` of a row for the single-column scanner, as the
specification describes it: the `c`-th comma-separated piece of the row, the
quote bytes dropped, cut at the capacity of the field buffer. -/
def column_text (c : Nat) (row : List Nat) : List Nat :=
  (((split_fields row).getD c []).filter (fun b => decide (b ≠ QUOTATION))).take ITEM_SIZE

/-- The writes that the specification of the request `[k]` amounts to on rows
given by their fields: one write per row into slot 0, at consecutive row
indices from `start`, of the text of the field at position `k - 1`. -/
def row_writes (k : Nat) : Nat → List (List (List Nat)) → List Write
  | _, [] => []
  | start, r :: rs =>
    { slot := 0, row := (start : Int), text := r.getD (k - 1) [] } :: row_writes k (start + 1) rs

/-! ## Invariant of the scan for a request with a duplicate -/

/-- With `sorted[j] = sorted[j + 1] = v`: `col_ptr` never passes `j + 1`, once
it is there the column index has reached `v`, and every write so far went to a
slot up to `j`. -/
def dup_invariant (j : Nat) (v : Int) (s : MultiState) : Prop :=
  s.col_ptr ≤ j + 1 ∧ (s.col_ptr = j + 1 → v ≤ (s.current_col : Int)) ∧
    ∀ w ∈ s.writes, w.slot ≤ j

/-! ## Calls of `get_columns_of_doubles` with defined behaviour -/

/-- Whether a call of `get_columns_of_doubles` (file opened, every allocation
succeeding) stays within defined behaviour: the loop is not left through the
`break`, after which the closed stream is closed a second time; every read of
`sorted` is at an index below `col_size`; and every write is at a slot below
`col_size` and a row from 0 up to `data_length - 1`. -/
def get_columns_defined (file : List Nat) (col : List Int) (data_length : Nat) : Bool :=
  (!multi_loop_breaks (qsort_comp col) data_length multi_init file) &&
    ((get_columns_sorted_reads file col data_length).all (fun p => decide (p < col.length)) &&
      (get_columns_writes file col data_length).all
        (fun w => decide (0 ≤ w.row ∧ w.row < (data_length : Int) ∧ w.slot < col.length)))

/-- What a call of `get_columns_of_doubles` returns: the table, when the call
stays within defined behaviour, and nothing that the program determines
otherwise. -/
def get_columns_result {V : Type} (strtod : List Nat → V) (file : List Nat)
    (col : List Int) (data_length : Nat) : Option (List (Option (List (Option V)))) :=
  if get_columns_defined file col data_length = true then
    some (get_columns_of_doubles strtod file col data_length)
  else
    none

/-! ## A concrete conversion for closed examples -/

/-- Value of a string of ASCII digits read as a decimal number, and zero as
soon as another byte is met at the front: what `strtod` returns on unsigned
integer literals and on text that does not start with a number. -/
def digits_value_aux : Nat → List Nat → Nat
  | acc, [] => acc
  | acc, c :: cs => if 48 ≤ c ∧ c ≤ 57 then digits_value_aux (acc * 10 + (c - 48)) cs else acc

/-- Conversion used in the closed examples in place of `strtod`. -/
def digits_value (text : List Nat) : Nat := digits_value_aux 0 text

/-- Bytes of a string literal. -/
def bytes (s : String) : List Nat := s.toList.map Char.toNat

end CsvParse

namespace CsvParse

/-! ## Single-column scanner: the loop on lines -/

section SingleLoop

variable {V : Type} (strtod : List Nat → V) (col : Int) (length : Nat)

theorem single_step_frame (s : SingleState V) (c : Nat) (hc : c ≠ NEWLINE) :
    (single_step strtod col s c).ret = s.ret ∧ (single_step strtod col s c).count = s.count ∧
      (single_step strtod col s c).valid = s.valid := by
  unfold single_step
  rw [if_neg hc]
  split_ifs <;> simp

theorem single_foldl_frame (r : List Nat) (hr : NEWLINE ∉ r) :
    ∀ s : SingleState V, (r.foldl (single_step strtod col) s).ret = s.ret ∧
      (r.foldl (single_step strtod col) s).count = s.count ∧
      (r.foldl (single_step strtod col) s).valid = s.valid := by
  induction r with
  | nil => intro s; simp
  | cons c cs ih =>
    intro s
    have hc : c ≠ NEWLINE := fun h => hr (by simp [h])
    have hcs : NEWLINE ∉ cs := fun h => hr (List.mem_cons_of_mem _ h)
    obtain ⟨h1, h2, h3⟩ := ih hcs (single_step strtod col s c)
    obtain ⟨g1, g2, g3⟩ := single_step_frame strtod col s c hc
    simp only [List.foldl_cons]
    exact ⟨h1.trans g1, h2.trans g2, h3.trans g3⟩

theorem single_loop_append (r rest : List Nat) (hr : NEWLINE ∉ r) :
    ∀ s : SingleState V, s.count ≠ length →
      single_loop strtod col length s (r ++ rest) =
        single_loop strtod col length (r.foldl (single_step strtod col) s) rest := by
  induction r with
  | nil => intro s _; simp
  | cons c cs ih =>
    intro s hs
    have hc : c ≠ NEWLINE := fun h => hr (by simp [h])
    have hcs : NEWLINE ∉ cs := fun h => hr (List.mem_cons_of_mem _ h)
    have hcount := (single_step_frame strtod col s c hc).2.1
    simp only [List.cons_append, single_loop, if_neg hs, List.foldl_cons]
    exact ih hcs _ (by rw [hcount]; exact hs)

/-- A data line: the loop stores the conversion of the collected field at
`count` and goes on with the next line. -/
theorem single_loop_line (r rest : List Nat) (hr : NEWLINE ∉ r) (s : SingleState V)
    (hv : s.valid = true) (hs : s.count ≠ length) :
    single_loop strtod col length s (r ++ NEWLINE :: rest) =
      single_loop strtod col length
        { ret := s.ret.set s.count (strtod (r.foldl (single_step strtod col) s).item),
          count := s.count + 1, item := [], current_col := 0, valid := true } rest := by
  obtain ⟨h1, h2, h3⟩ := single_foldl_frame strtod col r hr s
  rw [single_loop_append strtod col length r _ hr s hs]
  simp only [single_loop]
  rw [if_neg (by rw [h2]; exact hs)]
  simp [single_step, h1, h2, h3, hv]

/-- The header line: nothing is stored. -/
theorem single_loop_header (h rest : List Nat) (hh : NEWLINE ∉ h) (s : SingleState V)
    (hv : s.valid = false) (hs : s.count ≠ length) :
    single_loop strtod col length s (h ++ NEWLINE :: rest) =
      single_loop strtod col length
        { ret := s.ret, count := s.count, item := [], current_col := 0, valid := true } rest := by
  obtain ⟨h1, h2, h3⟩ := single_foldl_frame strtod col h hh s
  rw [single_loop_append strtod col length h _ hh s hs]
  simp only [single_loop]
  rw [if_neg (by rw [h2]; exact hs)]
  simp [single_step, h1, h2, h3, hv]

end SingleLoop

/-! ## Single-column scanner: fields of a row without quotes -/

section SingleFields

variable {V : Type} (strtod : List Nat → V) (col : Int)

theorem single_step_plain_other (s : SingleState V) (c : Nat)
    (hne : (s.current_col : Int) ≠ col) (h1 : c ≠ NEWLINE) (h2 : c ≠ DELIMITER) :
    single_step strtod col s c = s := by
  unfold single_step
  rw [if_neg h1, if_neg h2, if_neg (fun h => hne h.1)]

theorem single_step_plain_hit (s : SingleState V) (c : Nat)
    (he : (s.current_col : Int) = col) (h1 : c ≠ NEWLINE) (h2 : c ≠ DELIMITER)
    (h3 : c ≠ QUOTATION) (hlen : s.item.length < ITEM_SIZE) :
    single_step strtod col s c = { s with item := s.item ++ [c] } := by
  unfold single_step
  rw [if_neg h1, if_neg h2, if_pos ⟨he, h3, hlen⟩]

theorem single_foldl_field_other (f : List Nat) (hf : plain_field f) :
    ∀ s : SingleState V, (s.current_col : Int) ≠ col →
      f.foldl (single_step strtod col) s = s := by
  induction f with
  | nil => intro s _; rfl
  | cons c cs ih =>
    intro s hne
    obtain ⟨h1, h2, h3⟩ := hf
    have hcs : plain_field cs :=
      ⟨fun h => h1 (List.mem_cons_of_mem _ h), fun h => h2 (List.mem_cons_of_mem _ h),
        fun h => h3 (List.mem_cons_of_mem _ h)⟩
    rw [List.foldl_cons, single_step_plain_other strtod col s c hne
      (fun h => h1 (by simp [h])) (fun h => h2 (by simp [h]))]
    exact ih hcs s hne

theorem single_foldl_field_hit (f : List Nat) (hf : plain_field f) :
    ∀ s : SingleState V, (s.current_col : Int) = col → s.item.length + f.length ≤ ITEM_SIZE →
      f.foldl (single_step strtod col) s = { s with item := s.item ++ f } := by
  induction f with
  | nil => intro s _ _; simp
  | cons c cs ih =>
    intro s he hlen
    obtain ⟨h1, h2, h3⟩ := hf
    have hcs : plain_field cs :=
      ⟨fun h => h1 (List.mem_cons_of_mem _ h), fun h => h2 (List.mem_cons_of_mem _ h),
        fun h => h3 (List.mem_cons_of_mem _ h)⟩
    simp only [List.length_cons] at hlen
    rw [List.foldl_cons, single_step_plain_hit strtod col s c he
      (fun h => h1 (by simp [h])) (fun h => h2 (by simp [h])) (fun h => h3 (by simp [h]))
      (by omega)]
    rw [ih hcs { s with item := s.item ++ [c] } he
      (by simp only [List.length_append, List.length_singleton]; omega)]
    simp

/-- Bytes collected in `item` while a row without quotes is scanned: the text
of field `c`, counted from the column index at which the scan of the row
starts. -/
theorem single_foldl_row (c : Nat) :
    ∀ (fs : List (List Nat)) (s : SingleState V), fs ≠ [] →
      (∀ f ∈ fs, f.length < ITEM_SIZE ∧ plain_field f) →
      (s.current_col ≤ c → s.item = []) →
      ((row_bytes fs).foldl (single_step strtod (c : Int)) s).item =
        if s.current_col ≤ c ∧ c < s.current_col + fs.length then
          fs.getD (c - s.current_col) []
        else s.item := by
  intro fs
  induction fs with
  | nil => intro s h; exact absurd rfl h
  | cons f fs ih =>
    intro s _ hfs hitem
    obtain ⟨hflen, hf⟩ := hfs f (by simp)
    cases fs with
    | nil =>
      simp only [row_bytes]
      by_cases hcur : s.current_col = c
      · have hi : s.item = [] := hitem (le_of_eq hcur)
        rw [single_foldl_field_hit strtod (c : Int) f hf s (by rw [hcur])
          (by rw [hi]; simp; omega)]
        simp [hcur, hi]
      · rw [single_foldl_field_other strtod (c : Int) f hf s (by omega)]
        have : ¬ (s.current_col ≤ c ∧ c < s.current_col + [f].length) := by
          simp only [List.length_singleton]; omega
        rw [if_neg this]
    | cons g gs =>
      have hrest : ∀ f ∈ g :: gs, f.length < ITEM_SIZE ∧ plain_field f :=
        fun x hx => hfs x (List.mem_cons_of_mem _ hx)
      simp only [row_bytes, List.foldl_append, List.foldl_cons]
      by_cases hcur : s.current_col = c
      · have hi : s.item = [] := hitem (le_of_eq hcur)
        rw [single_foldl_field_hit strtod (c : Int) f hf s (by rw [hcur])
          (by rw [hi]; simp; omega)]
        have hstep : single_step strtod (c : Int) { s with item := s.item ++ f } DELIMITER =
            { s with item := s.item ++ f, current_col := s.current_col + 1 } := by
          simp [single_step, DELIMITER, NEWLINE]
        rw [hstep, ih _ (by simp) hrest (by simp only; intro h; omega)]
        simp [hcur, hi]
      · rw [single_foldl_field_other strtod (c : Int) f hf s (by omega)]
        have hstep : single_step strtod (c : Int) s DELIMITER =
            { s with current_col := s.current_col + 1 } := by
          simp [single_step, DELIMITER, NEWLINE]
        rw [hstep, ih _ (by simp) hrest (by simp only; intro h; exact hitem (by omega))]
        simp only [List.length_cons]
        by_cases hle : s.current_col + 1 ≤ c
        · by_cases hlt : c < s.current_col + 1 + (gs.length + 1)
          · rw [if_pos ⟨hle, hlt⟩, if_pos ⟨by omega, by omega⟩]
            have : c - s.current_col = (c - (s.current_col + 1)) + 1 := by omega
            rw [this]
            simp [List.getD]
          · rw [if_neg (fun h => hlt h.2), if_neg (fun h => hlt (by omega))]
        · rw [if_neg (fun h => hle h.1), if_neg (fun h => hle (by omega))]

end SingleFields

/-! ## Single-column scanner: whole files -/

section SingleFile

variable {V : Type} (strtod : List Nat → V)

theorem single_loop_done (col : Int) (length : Nat) (s : SingleState V) (bs : List Nat)
    (h : s.count = length) : single_loop strtod col length s bs = s := by
  cases bs with
  | nil => rfl
  | cons c cs => simp [single_loop, h]

theorem row_bytes_no_newline :
    ∀ fs : List (List Nat), (∀ f ∈ fs, plain_field f) → NEWLINE ∉ row_bytes fs := by
  intro fs
  induction fs with
  | nil => intro _; simp [row_bytes]
  | cons f fs ih =>
    intro h
    cases fs with
    | nil => simpa [row_bytes] using (h f (by simp)).1
    | cons g gs =>
      have h1 := (h f (by simp)).1
      have h2 := ih (fun x hx => h x (List.mem_cons_of_mem _ hx))
      simp only [row_bytes, List.mem_append, List.mem_cons, not_or]
      exact ⟨h1, by decide, h2⟩

theorem set_append_cons {α : Type} (done pend : List α) (z v : α) :
    (done ++ z :: pend).set done.length v = (done ++ [v]) ++ pend := by
  induction done with
  | nil => simp
  | cons d ds ih => simp

/-- Scan of data rows without quotes from the state in which the scanner is
after a newline: the rows still wanted are stored, one conversion per row. -/
theorem single_rows_run (c L : Nat) :
    ∀ (rows : List (List (List Nat))) (done pend : List V),
      done.length + pend.length = L → pend.length ≤ rows.length →
      (∀ r ∈ rows, c < r.length ∧ ∀ f ∈ r, f.length < ITEM_SIZE ∧ plain_field f) →
      (single_final strtod L (single_loop strtod (c : Int) L
        { ret := done ++ pend, count := done.length, item := [], current_col := 0, valid := true }
        (lines_bytes (rows.map row_bytes)))).ret =
        done ++ (rows.take pend.length).map (fun r => strtod (r.getD c [])) := by
  intro rows
  induction rows with
  | nil =>
    intro done pend hlen hp _
    have hpend : pend = [] := List.length_eq_zero.mp (Nat.le_zero.mp hp)
    subst hpend
    simp only [List.length_nil, Nat.add_zero] at hlen
    simp [lines_bytes, single_loop, single_final, hlen]
  | cons r rs ih =>
    intro done pend hlen hp hrows
    cases pend with
    | nil =>
      simp only [List.length_nil, Nat.add_zero] at hlen
      rw [single_loop_done strtod _ _ _ _ (by simpa using hlen)]
      simp [single_final, hlen]
    | cons z pend =>
      obtain ⟨hc, hr⟩ := hrows r (by simp)
      simp only [List.length_cons] at hlen hp
      have hnl : NEWLINE ∉ row_bytes r := row_bytes_no_newline r (fun f hf => (hr f hf).2)
      have hne : r ≠ [] := by intro h; rw [h] at hc; simp at hc
      simp only [List.map_cons, lines_bytes]
      rw [single_loop_line strtod (c : Int) L (row_bytes r) _ hnl _ rfl
        (by simp only; omega)]
      rw [single_foldl_row strtod c r _ hne hr (fun _ => rfl)]
      simp only [Nat.zero_le, Nat.zero_add, hc, and_self, if_true, Nat.sub_zero, set_append_cons]
      have hcount : done.length + 1 = (done ++ [strtod (r.getD c [])]).length := by simp
      rw [hcount, ih (done ++ [strtod (r.getD c [])]) pend (by simp; omega) (by omega)
        (fun x hx => hrows x (List.mem_cons_of_mem _ hx))]
      simp

/-- Scan of arbitrary data lines when the budget exceeds their number: the
entries behind the stored ones stay zero, the one written at the end of the
input included. -/
theorem single_lines_tail [Zero V] (hz : strtod [] = 0) (col : Int) (L : Nat) :
    ∀ (rows : List (List Nat)) (done : List V) (m : Nat),
      rows.length < m → done.length + m = L → (∀ r ∈ rows, NEWLINE ∉ r) →
      ∃ stored : List V, stored.length = done.length + rows.length ∧
        (single_final strtod L (single_loop strtod col L
          { ret := done ++ List.replicate m 0, count := done.length, item := [],
            current_col := 0, valid := true }
          (lines_bytes rows))).ret = stored ++ List.replicate (m - rows.length) 0 := by
  intro rows
  induction rows with
  | nil =>
    intro done m hm hlen _
    refine ⟨done, by simp, ?_⟩
    obtain ⟨k, rfl⟩ : ∃ k, m = k + 1 := ⟨m - 1, by simp at hm; omega⟩
    have hlt : done.length < L := by omega
    simp only [lines_bytes, single_loop, single_final, hlt, and_self, if_true, hz,
      List.replicate_succ, set_append_cons, List.length_nil, Nat.sub_zero]
    simp
  | cons r rs ih =>
    intro done m hm hlen hrows
    simp only [List.length_cons] at hm
    obtain ⟨k, rfl⟩ : ∃ k, m = k + 1 := ⟨m - 1, by omega⟩
    simp only [lines_bytes]
    rw [single_loop_line strtod col L r _ (hrows r (by simp)) _ rfl (by simp only; omega)]
    simp only [List.replicate_succ, set_append_cons]
    generalize hv : strtod (List.foldl (single_step strtod col) _ r).item = v
    have hcount : done.length + 1 = (done ++ [v]).length := by simp
    rw [hcount]
    obtain ⟨stored, hs1, hs2⟩ := ih (done ++ [v]) k (by omega) (by simp; omega)
      (fun x hx => hrows x (List.mem_cons_of_mem _ hx))
    refine ⟨stored, by simp at hs1 ⊢; omega, ?_⟩
    rw [hs2]
    simp

end SingleFile

/-! ## Claims on the single-column scanner -/

/-- C1: on a file made of a header line and `N` newline-terminated data rows
without quotes whose fields are shorter than 256 bytes, for a column `c` that
every row has and a budget `L` with `0 < L ≤ N`, `get_column_of_doubles`
returns exactly `L` entries, and entry `i` is the conversion of the text of
field `c` of data row `i + 1`. -/
theorem single_column_extracts {V : Type} [Zero V] (strtod : List Nat → V)
    (header : List Nat) (rows : List (List (List Nat))) (c L : Nat)
    (hheader : NEWLINE ∉ header)
    (hrows : ∀ r ∈ rows, c < r.length ∧ ∀ f ∈ r, f.length < ITEM_SIZE ∧ plain_field f)
    (hpos : 0 < L) (hbudget : L ≤ rows.length) :
    (get_column_of_doubles strtod (csv_file header (rows.map row_bytes)) (c : Int) L).length = L ∧
      ∀ i, i < L →
        (get_column_of_doubles strtod (csv_file header (rows.map row_bytes)) (c : Int) L)[i]? =
          some (strtod ((rows.getD i []).getD c [])) := by
  have hrun : get_column_of_doubles strtod (csv_file header (rows.map row_bytes)) (c : Int) L =
      (rows.take L).map (fun r => strtod (r.getD c [])) := by
    unfold get_column_of_doubles csv_file
    rw [single_loop_header strtod (c : Int) L header _ hheader (single_init V L) rfl
      (by simp only [single_init]; omega)]
    have h := single_rows_run strtod c L rows [] (List.replicate L 0) (by simp) (by simpa using hbudget)
      hrows
    simpa [single_init] using h
  rw [hrun]
  refine ⟨by simp [hbudget], fun i hi => ?_⟩
  have hi2 : i < rows.length := by omega
  simp [List.getElem?_take, hi, List.getD, List.getElem?_eq_getElem hi2]

/-- C1, the example of the specification: file `a,b,c\n1,2,3\n4,5,6\n`,
column 1, budget 2 gives `[2, 5]`, as the theorem says. -/
theorem single_column_extracts_witness :
    get_column_of_doubles digits_value (bytes "a,b,c\n1,2,3\n4,5,6\n") 1 2 = [2, 5] ∧
      (get_column_of_doubles digits_value (bytes "a,b,c\n1,2,3\n4,5,6\n") 1 2).length = 2 ∧
      ∀ i, i < 2 →
        (get_column_of_doubles digits_value (bytes "a,b,c\n1,2,3\n4,5,6\n") 1 2)[i]? =
          some (digits_value
            ((([[[49], [50], [51]], [[52], [53], [54]]] : List (List (List Nat))).getD i []).getD
              1 [])) :=
  ⟨by decide,
    single_column_extracts digits_value (bytes "a,b,c") [[[49], [50], [51]], [[52], [53], [54]]]
      1 2 (by decide) (by decide) (by decide) (by decide)⟩

/-- C4: on a file made of a header line and `N` newline-terminated data rows,
with a budget `L > N`, every entry of the array returned by
`get_column_of_doubles` at an index `i` with `N ≤ i < L` is zero; `strtod`
returns zero on the empty text, which is what the end-of-input branch converts
for entry `N`. -/
theorem single_tail_zero {V : Type} [Zero V] (strtod : List Nat → V) (hstrtod : strtod [] = 0)
    (header : List Nat) (rows : List (List Nat)) (col : Int) (L : Nat)
    (hheader : NEWLINE ∉ header) (hrows : ∀ r ∈ rows, NEWLINE ∉ r) (hbudget : rows.length < L) :
    (get_column_of_doubles strtod (csv_file header rows) col L).length = L ∧
      ∀ i, rows.length ≤ i → i < L →
        (get_column_of_doubles strtod (csv_file header rows) col L)[i]? = some 0 := by
  obtain ⟨stored, hs1, hs2⟩ := single_lines_tail strtod hstrtod col L rows [] L hbudget (by simp)
    hrows
  have hrun : get_column_of_doubles strtod (csv_file header rows) col L =
      stored ++ List.replicate (L - rows.length) 0 := by
    unfold get_column_of_doubles csv_file
    rw [single_loop_header strtod col L header _ hheader (single_init V L) rfl
      (by simp only [single_init]; omega)]
    simpa [single_init] using hs2
  simp only [List.length_nil, Nat.zero_add] at hs1
  rw [hrun]
  refine ⟨by simp [hs1]; omega, fun i h1 h2 => ?_⟩
  rw [List.getElem?_append_right (by omega)]
  simp [List.getElem?_replicate, hs1]
  omega

/-- C4 on the file `a,b,c\n1,2,3\n4,5,6\n` with column 1 and budget 4: the
entries 2 and 3 are zero. -/
theorem single_tail_zero_witness :
    (get_column_of_doubles digits_value (csv_file (bytes "a,b,c") [bytes "1,2,3", bytes "4,5,6"])
        1 4).length = 4 ∧
      ∀ i, 2 ≤ i → i < 4 →
        (get_column_of_doubles digits_value
          (csv_file (bytes "a,b,c") [bytes "1,2,3", bytes "4,5,6"]) 1 4)[i]? = some 0 :=
  single_tail_zero digits_value (by decide) (bytes "a,b,c") [bytes "1,2,3", bytes "4,5,6"] 1 4
    (by decide) (by decide) (by decide)

/-- C6: the header never reaches the output of `get_column_of_doubles`: two
files that differ only in their header record (a byte string without a
newline) give the same array, for every column and every budget. -/
theorem single_header_independent {V : Type} [Zero V] (strtod : List Nat → V)
    (h1 h2 b : List Nat) (col : Int) (L : Nat) (hh1 : NEWLINE ∉ h1) (hh2 : NEWLINE ∉ h2) :
    get_column_of_doubles strtod (h1 ++ NEWLINE :: b) col L =
      get_column_of_doubles strtod (h2 ++ NEWLINE :: b) col L := by
  unfold get_column_of_doubles
  by_cases hL : (single_init V L).count = L
  · rw [single_loop_done strtod col L _ _ hL, single_loop_done strtod col L _ _ hL]
  · rw [single_loop_header strtod col L h1 b hh1 _ rfl hL,
      single_loop_header strtod col L h2 b hh2 _ rfl hL]

/-- C6 on the headers `a,b,c` and `9,9,9` in front of `1,2,3\n4,5,6\n`. -/
theorem single_header_independent_witness :
    get_column_of_doubles digits_value (bytes "a,b,c" ++ NEWLINE :: bytes "1,2,3\n4,5,6\n") 1 2 =
      get_column_of_doubles digits_value (bytes "9,9,9" ++ NEWLINE :: bytes "1,2,3\n4,5,6\n") 1 2 :=
  single_header_independent digits_value (bytes "a,b,c") (bytes "9,9,9") (bytes "1,2,3\n4,5,6\n")
    1 2 (by decide) (by decide)

/-! ## Multi-column scanner: the loop -/

theorem multi_step_line (sorted : List Int) (s : MultiState) (c : Nat) :
    (multi_step sorted s c).line = if c = NEWLINE then s.line + 1 else s.line := by
  unfold multi_step multi_field_end
  split_ifs <;> simp

/-- Once the row counter has reached the budget at the end of a piece of input,
bytes that follow are not looked at. -/
theorem multi_loop_append_of_full (sorted : List Int) (data_length : Nat) (rest : List Nat) :
    ∀ (p : List Nat) (s : MultiState),
      (multi_loop sorted data_length s p).line = (data_length : Int) →
      multi_loop sorted data_length s (p ++ rest) = multi_loop sorted data_length s p := by
  intro p
  induction p with
  | nil =>
    intro s h
    simp only [multi_loop] at h
    cases rest with
    | nil => rfl
    | cons c cs => simp [multi_loop, h]
  | cons c cs ih =>
    intro s h
    by_cases hs : s.line = (data_length : Int)
    · simp [multi_loop, hs]
    · simp only [List.cons_append, multi_loop, if_neg hs] at h ⊢
      exact ih _ h

/-- After a piece of input that ends with a newline and holds as many newlines
as the row counter is short of the budget, the row counter equals the budget. -/
theorem multi_loop_line_full (sorted : List Int) (data_length : Nat) :
    ∀ (q : List Nat) (s : MultiState),
      s.line + (q.count NEWLINE : Int) + 1 = (data_length : Int) →
      (multi_loop sorted data_length s (q ++ [NEWLINE])).line = (data_length : Int) := by
  intro q
  induction q with
  | nil =>
    intro s h
    have hs : s.line ≠ (data_length : Int) := by simp at h; omega
    simp only [List.nil_append, multi_loop, if_neg hs, multi_step_line]
    simp at h ⊢
    omega
  | cons c cs ih =>
    intro s h
    have hs : s.line ≠ (data_length : Int) := by omega
    simp only [List.cons_append, multi_loop, if_neg hs]
    apply ih
    rw [multi_step_line]
    by_cases hc : c = NEWLINE
    · subst hc
      simp only [List.count_cons_self, if_true] at h ⊢
      push_cast at h
      omega
    · have hc2 : NEWLINE ≠ c := fun h => hc h.symm
      rw [List.count_cons_of_ne hc2] at h
      simp only [hc, if_false]
      exact h

theorem multi_scan_append_of_full (sorted : List Int) (data_length : Nat) (p rest : List Nat)
    (hend : p.getLast? = some NEWLINE) (hcount : p.count NEWLINE = data_length + 1) :
    multi_scan sorted data_length (p ++ rest) = multi_scan sorted data_length p := by
  obtain ⟨q, rfl⟩ := List.getLast?_eq_some_iff.mp hend
  have hq : q.count NEWLINE = data_length := by simpa using hcount
  unfold multi_scan
  rw [multi_loop_append_of_full sorted data_length rest (q ++ [NEWLINE]) multi_init
    (multi_loop_line_full sorted data_length q multi_init (by simp [multi_init, hq]))]

/-! ## Claims on the multi-column scanner -/

/-- C9: input after the row budget is ignored. For every budget `data_length`,
every byte string `p` that ends with a newline and holds exactly
`data_length + 1` newline bytes, and every suffix, the writes that
`get_columns_of_doubles` performs on `p ++ suffix` are exactly the writes it
performs on `p`. -/
theorem multi_ignores_after_budget (col : List Int) (data_length : Nat) (p suffix : List Nat)
    (hend : p.getLast? = some NEWLINE) (hcount : p.count NEWLINE = data_length + 1) :
    get_columns_writes (p ++ suffix) col data_length = get_columns_writes p col data_length := by
  unfold get_columns_writes
  rw [multi_scan_append_of_full (qsort_comp col) data_length p suffix hend hcount]

/-- C9 on `a,b\n1,2\n` with budget 1, request `[1]` and the suffix `3,4\n`: the
only write is the one of row 0. -/
theorem multi_ignores_after_budget_witness :
    get_columns_writes (bytes "a,b\n1,2\n3,4\n") [1] 1 = [⟨0, 0, bytes "ab1"⟩] ∧
      get_columns_writes (bytes "a,b\n1,2\n" ++ bytes "3,4\n") [1] 1 =
        get_columns_writes (bytes "a,b\n1,2\n") [1] 1 :=
  ⟨by decide,
    multi_ignores_after_budget [1] 1 (bytes "a,b\n1,2\n") (bytes "3,4\n") (by decide)
      (by decide)⟩

/-- C8: a delimiter inside quotes does not end a field. From every scan state
with the quote flag closed (in particular every state reached after the
header), consuming the bytes of the quoted field `"1,234"` leaves the column
index, `col_ptr`, the row counter and the writes as they were and ends with the
quote flag closed; while the row budget is not reached the bytes `1234` are
appended to the field buffer as far as its capacity of 255 allows, and the
buffer is converted as one field at the next delimiter. -/
theorem multi_quoted_field (sorted : List Int) (data_length : Nat) (s : MultiState)
    (hquote : s.quote = false) :
    (multi_loop sorted data_length s quoted_1234).current_col = s.current_col ∧
      (multi_loop sorted data_length s quoted_1234).col_ptr = s.col_ptr ∧
      (multi_loop sorted data_length s quoted_1234).line = s.line ∧
      (multi_loop sorted data_length s quoted_1234).writes = s.writes ∧
      (multi_loop sorted data_length s quoted_1234).quote = false ∧
      (multi_loop sorted data_length s quoted_1234).valid = s.valid ∧
      (multi_loop sorted data_length s quoted_1234).temp =
        (if s.line = (data_length : Int) then s.temp
         else s.temp ++ [49, 50, 51, 52].take (ITEM_SIZE - 1 - s.temp.length)) ∧
      (s.valid = true → s.line ≠ (data_length : Int) →
        multi_loop sorted data_length s (quoted_1234 ++ [DELIMITER]) =
          multi_field_end sorted
            { s with temp := s.temp ++ [49, 50, 51, 52].take (ITEM_SIZE - 1 - s.temp.length) }) := by
  by_cases hl : s.line = (data_length : Int)
  · simp [quoted_1234, multi_loop, hl, hquote]
  · have hcases : s.temp.length ≤ 251 ∨ s.temp.length = 252 ∨ s.temp.length = 253 ∨
        s.temp.length = 254 ∨ 255 ≤ s.temp.length := by omega
    rcases hcases with h | h | h | h | h
    · have h1 : s.temp.length < 255 := by omega
      have h2 : s.temp.length + 1 < 255 := by omega
      have h3 : s.temp.length + 1 + 1 < 255 := by omega
      have h4 : s.temp.length + 1 + 1 + 1 < 255 := by omega
      have ht : List.take (255 - s.temp.length) [49, 50, 51, 52] = [49, 50, 51, 52] :=
        List.take_of_length_le (by simp; omega)
      simp [quoted_1234, multi_loop, multi_step, hl, hquote, NEWLINE, DELIMITER, QUOTATION,
        ITEM_SIZE, h1, h2, h3, h4, ht]
      intro hv hv2
      rw [hv] at hv2
      exact absurd hv2 (by decide)
    · simp [quoted_1234, multi_loop, multi_step, hl, hquote, NEWLINE, DELIMITER, QUOTATION,
        ITEM_SIZE, h]
      intro hv hv2
      rw [hv] at hv2
      exact absurd hv2 (by decide)
    · simp [quoted_1234, multi_loop, multi_step, hl, hquote, NEWLINE, DELIMITER, QUOTATION,
        ITEM_SIZE, h]
      intro hv hv2
      rw [hv] at hv2
      exact absurd hv2 (by decide)
    · simp [quoted_1234, multi_loop, multi_step, hl, hquote, NEWLINE, DELIMITER, QUOTATION,
        ITEM_SIZE, h]
      intro hv hv2
      rw [hv] at hv2
      exact absurd hv2 (by decide)
    · have h1 : ¬ s.temp.length < 255 := by omega
      have ht : 255 - s.temp.length = 0 := by omega
      simp [quoted_1234, multi_loop, multi_step, hl, hquote, NEWLINE, DELIMITER, QUOTATION,
        ITEM_SIZE, h1, ht]
      intro hv hv2
      rw [hv] at hv2
      exact absurd hv2 (by decide)

/-- C8 on the state reached after `a,b\n7,` with the sorted request `[1, 2]`:
the quoted field leaves the writes as they were and fills the field buffer with
`1234`. -/
theorem multi_quoted_field_witness :
    (multi_loop [1, 2] 5 (multi_loop [1, 2] 5 multi_init (bytes "a,b\n7,")) quoted_1234).writes =
        (multi_loop [1, 2] 5 multi_init (bytes "a,b\n7,")).writes ∧
      (multi_loop [1, 2] 5 (multi_loop [1, 2] 5 multi_init (bytes "a,b\n7,")) quoted_1234).temp =
        [49, 50, 51, 52] :=
  ⟨(multi_quoted_field [1, 2] 5 (multi_loop [1, 2] 5 multi_init (bytes "a,b\n7,"))
      (by decide)).2.2.2.1,
    (multi_quoted_field [1, 2] 5 (multi_loop [1, 2] 5 multi_init (bytes "a,b\n7,"))
      (by decide)).2.2.2.2.2.2.1⟩

/-! ## Inputs on which the code departs from the specification -/

/-- C2 at the example of the specification, file `a,b,c\n1,2,3\n4,5,6\n`,
request `[2, 0]`, budget 2: `get_columns_of_doubles` performs no write, and
both returned arrays hold only cells that were never assigned. -/
theorem multi_example_unwritten {V : Type} (strtod : List Nat → V) :
    get_columns_writes (bytes "a,b,c\n1,2,3\n4,5,6\n") [2, 0] 2 = [] ∧
      get_columns_of_doubles strtod (bytes "a,b,c\n1,2,3\n4,5,6\n") [2, 0] 2 =
        [some [none, none], some [none, none]] :=
  ⟨rfl, rfl⟩

/-- C3 at file `a,b,c\n1,2,3\n4,5,6\n`, request `[2, 0, 1]`, budget 2: the
three arrays of `get_columns_of_doubles` are never assigned, while
`get_column_of_doubles` returns the columns 2, 0 and 1 of the data rows. -/
theorem scanners_disagree :
    get_columns_of_doubles digits_value (bytes "a,b,c\n1,2,3\n4,5,6\n") [2, 0, 1] 2 =
        [some [none, none], some [none, none], some [none, none]] ∧
      get_column_of_doubles digits_value (bytes "a,b,c\n1,2,3\n4,5,6\n") 2 2 = [3, 6] ∧
      get_column_of_doubles digits_value (bytes "a,b,c\n1,2,3\n4,5,6\n") 0 2 = [1, 4] ∧
      get_column_of_doubles digits_value (bytes "a,b,c\n1,2,3\n4,5,6\n") 1 2 = [2, 5] := by
  decide

/-- C5 at the headers `1` and `2` in front of the body `1,2\n`, request `[1]`,
budget 1: the header bytes stay in `temp` and are converted with the first
field of the first data row, so the writes and the returned values differ. -/
theorem multi_header_leaks :
    get_columns_writes (bytes "1" ++ NEWLINE :: bytes "1,2\n") [1] 1 = [⟨0, 0, bytes "11"⟩] ∧
      get_columns_writes (bytes "2" ++ NEWLINE :: bytes "1,2\n") [1] 1 = [⟨0, 0, bytes "21"⟩] ∧
      get_columns_of_doubles digits_value (bytes "1" ++ NEWLINE :: bytes "1,2\n") [1] 1 =
        [some [some 11]] ∧
      get_columns_of_doubles digits_value (bytes "2" ++ NEWLINE :: bytes "1,2\n") [1] 1 =
        [some [some 21]] := by
  decide

/-- C7 at the file `abc` (an unterminated header), request `[1]`, budget 1: the
final-item branch stores the conversion of `abc` at row `-1` of slot 0. -/
theorem multi_write_before_first_row :
    get_columns_writes (bytes "abc") [1] 1 = [⟨0, -1, bytes "abc"⟩] := by
  decide

set_option maxRecDepth 100000

/-- C10 at the file made of the header `h` and one data row of 256 bytes `1`,
column 0, budget 1: `item` is assigned at index 0 for the header byte, at the
indices 0 to 255 for the bytes of the row, and then the zero byte of line 63 is
stored at index 256, past the end of the 256-byte buffer. -/
theorem single_item_write_past_end :
    get_column_item_writes digits_value
        (bytes "h\n" ++ List.replicate 256 49 ++ [NEWLINE]) 0 1 = 0 :: List.range 257 ∧
      ¬ ∀ p ∈ get_column_item_writes digits_value
        (bytes "h\n" ++ List.replicate 256 49 ++ [NEWLINE]) 0 1, p < ITEM_SIZE := by
  decide

/-! ## Sorting with `comp` -/

theorem comp_eq_sub (a b : Int) (ha : 0 ≤ a) (ha2 : a < 2147483648) (hb : 0 ≤ b)
    (hb2 : b < 2147483648) : comp a b = a - b := by
  unfold comp wrap32
  omega

theorem comp_insert_eq_orderedInsert (x : Int) (hx : 0 ≤ x ∧ x < 2147483648) :
    ∀ l : List Int, (∀ y ∈ l, 0 ≤ y ∧ y < 2147483648) →
      comp_insert x l = List.orderedInsert (· ≤ ·) x l := by
  intro l
  induction l with
  | nil => intro _; rfl
  | cons y ys ih =>
    intro h
    obtain ⟨hy1, hy2⟩ := h y (by simp)
    have hc := comp_eq_sub x y hx.1 hx.2 hy1 hy2
    simp only [comp_insert, List.orderedInsert, hc]
    rw [ih (fun z hz => h z (List.mem_cons_of_mem _ hz))]
    by_cases hle : x ≤ y
    · rw [if_pos (by omega), if_pos hle]
    · rw [if_neg (by omega), if_neg hle]

theorem comp_insert_perm (x : Int) : ∀ l : List Int, (comp_insert x l).Perm (x :: l) := by
  intro l
  induction l with
  | nil => exact List.Perm.refl _
  | cons y ys ih =>
    simp only [comp_insert]
    split_ifs
    · exact List.Perm.refl _
    · exact (List.Perm.cons y ih).trans (List.Perm.swap x y ys)

theorem qsort_comp_perm : ∀ l : List Int, (qsort_comp l).Perm l := by
  intro l
  induction l with
  | nil => exact List.Perm.refl _
  | cons x xs ih =>
    have h : qsort_comp (x :: xs) = comp_insert x (qsort_comp xs) := rfl
    rw [h]
    exact (comp_insert_perm x _).trans (List.Perm.cons x ih)

theorem qsort_comp_eq_insertionSort :
    ∀ l : List Int, (∀ y ∈ l, 0 ≤ y ∧ y < 2147483648) →
      qsort_comp l = List.insertionSort (· ≤ ·) l := by
  intro l
  induction l with
  | nil => intro _; rfl
  | cons x xs ih =>
    intro h
    have hxs : ∀ y ∈ xs, 0 ≤ y ∧ y < 2147483648 := fun z hz => h z (List.mem_cons_of_mem _ hz)
    have hq : qsort_comp (x :: xs) = comp_insert x (qsort_comp xs) := rfl
    rw [hq, List.insertionSort, ← ih hxs]
    exact comp_insert_eq_orderedInsert x (h x (by simp)) _
      (fun y hy => hxs y ((qsort_comp_perm xs).mem_iff.mp hy))

theorem qsort_comp_sorted (l : List Int) (h : ∀ y ∈ l, 0 ≤ y ∧ y < 2147483648) :
    (qsort_comp l).Sorted (· ≤ ·) := by
  rw [qsort_comp_eq_insertionSort l h]
  exact List.sorted_insertionSort (· ≤ ·) l

/-- C20: for non-negative 32-bit signed column indices `a` and `b` the
subtraction in `comp` does not wrap, `comp a b` is negative, zero or positive
exactly when `a < b`, `a = b` or `a > b`, and sorting a request list of such
indices with `comp` gives its ascending order: an ascending list with the same
entries. -/
theorem comp_orders_indices :
    (∀ a b : Int, 0 ≤ a → a < 2147483648 → 0 ≤ b → b < 2147483648 →
      comp a b = a - b ∧ (comp a b < 0 ↔ a < b) ∧ (comp a b = 0 ↔ a = b) ∧
        (0 < comp a b ↔ b < a)) ∧
      ∀ l : List Int, (∀ y ∈ l, 0 ≤ y ∧ y < 2147483648) →
        (qsort_comp l).Sorted (· ≤ ·) ∧ (qsort_comp l).Perm l := by
  refine ⟨fun a b ha ha2 hb hb2 => ?_, fun l h => ⟨qsort_comp_sorted l h, qsort_comp_perm l⟩⟩
  rw [comp_eq_sub a b ha ha2 hb hb2]
  refine ⟨rfl, ?_, ?_, ?_⟩ <;> constructor <;> intro h <;> omega

/-- C20 on the indices 2 and 0 and on the request `[2, 0, 1]`. -/
theorem comp_orders_indices_witness :
    (comp 2 0 = 2 - 0 ∧ (comp 2 0 < 0 ↔ (2 : Int) < 0) ∧ (comp 2 0 = 0 ↔ (2 : Int) = 0) ∧
        (0 < comp 2 0 ↔ (0 : Int) < 2)) ∧
      ((qsort_comp [2, 0, 1]).Sorted (· ≤ ·) ∧ (qsort_comp [2, 0, 1]).Perm [2, 0, 1]) ∧
      qsort_comp [2, 0, 1] = [0, 1, 2] :=
  ⟨comp_orders_indices.1 2 0 (by decide) (by decide) (by decide) (by decide),
    comp_orders_indices.2 [2, 0, 1] (by decide), by decide⟩

/-! ## The unsort step -/

theorem find_sorted_of_entry :
    ∀ (l : List Int), l.Nodup → ∀ (j : Nat) (x : Int), l[j]? = some x →
      find_sorted x l = some j := by
  intro l
  induction l with
  | nil => intro _ j x h; simp at h
  | cons y ys ih =>
    intro hnd j x h
    obtain ⟨hy, hys⟩ := List.nodup_cons.mp hnd
    cases j with
    | zero =>
      simp only [List.getElem?_cons_zero, Option.some.injEq] at h
      simp [find_sorted, h]
    | succ n =>
      simp only [List.getElem?_cons_succ] at h
      have hx : x ∈ ys := List.mem_iff_getElem?.mpr ⟨n, h⟩
      have hne : y ≠ x := fun e => hy (e ▸ hx)
      simp [find_sorted, hne, ih hys n x h]

theorem entry_of_find_sorted :
    ∀ (l : List Int) (j : Nat) (x : Int), find_sorted x l = some j → l[j]? = some x := by
  intro l
  induction l with
  | nil => intro j x h; simp [find_sorted] at h
  | cons y ys ih =>
    intro j x h
    simp only [find_sorted] at h
    by_cases hy : y = x
    · rw [if_pos hy] at h
      simp only [Option.some.injEq] at h
      subst h
      simp [hy]
    · rw [if_neg hy] at h
      obtain ⟨n, hn, rfl⟩ := Option.map_eq_some'.mp h
      simpa using ih n x hn

/-- C15: the unsort step. For a duplicate-free request `col` and its sorted
copy, slot `i` of the returned table is the buffer `data[j]` of the one
position `j` with `sorted[j] = col[i]`, and the returned table is a
permutation of the scanned buffers: every slot is assigned and every buffer
appears exactly once. -/
theorem unsort_permutes {V : Type} (col : List Int) (data : List (List (Option V)))
    (hnodup : col.Nodup) (hlen : data.length = col.length) :
    (unsort col (qsort_comp col) data).Perm (data.map some) ∧
      ∀ (i : Nat) (x : Int), col[i]? = some x →
        ∃ j, j < data.length ∧ (qsort_comp col)[j]? = some x ∧
          (∀ j2, (qsort_comp col)[j2]? = some x → j2 = j) ∧
          (unsort col (qsort_comp col) data)[i]? = some (data[j]?) := by
  have hperm := qsort_comp_perm col
  have hsnd : (qsort_comp col).Nodup := hperm.symm.nodup hnodup
  have hslen : (qsort_comp col).length = data.length := by rw [hperm.length_eq, hlen]
  constructor
  · have hmap : (qsort_comp col).map
        (fun original_col => (find_sorted original_col (qsort_comp col)).bind (fun j => data[j]?)) =
        data.map some := by
      apply List.ext_getElem?
      intro n
      simp only [List.getElem?_map]
      by_cases hn : n < data.length
      · have hn2 : n < (qsort_comp col).length := by omega
        rw [List.getElem?_eq_getElem hn2, List.getElem?_eq_getElem hn]
        simp only [Option.map_some']
        rw [find_sorted_of_entry _ hsnd n _ (List.getElem?_eq_getElem hn2)]
        simp [List.getElem?_eq_getElem hn]
      · have hn2 : ¬ n < (qsort_comp col).length := by omega
        rw [List.getElem?_eq_none (by omega), List.getElem?_eq_none (by omega)]
        rfl
    unfold unsort
    rw [← hmap]
    exact (hperm.symm.map _)
  · intro i x hi
    have hx : x ∈ qsort_comp col := hperm.mem_iff.mpr (List.mem_iff_getElem?.mpr ⟨i, hi⟩)
    obtain ⟨j, hj⟩ := List.mem_iff_getElem?.mp hx
    have hfind := find_sorted_of_entry _ hsnd j x hj
    have hjlt : j < data.length := by
      obtain ⟨h, _⟩ := List.getElem?_eq_some.mp hj
      omega
    refine ⟨j, hjlt, hj, fun j2 hj2 => ?_, ?_⟩
    · have h2 := find_sorted_of_entry _ hsnd j2 x hj2
      rw [hfind] at h2
      exact (Option.some.inj h2).symm
    · unfold unsort
      simp [List.getElem?_map, hi, hfind]

/-- C15 on the request `[2, 0, 1]` with three buffers: the slots 0, 1, 2 of the
returned table are the buffers 2, 0, 1. -/
theorem unsort_permutes_witness :
    unsort [2, 0, 1] (qsort_comp [2, 0, 1]) [[some 10], [some 20], [some 30]] =
        [some [some 30], some [some 10], some [some 20]] ∧
      (unsort [2, 0, 1] (qsort_comp [2, 0, 1]) [[some 10], [some 20], [some 30]]).Perm
        ([[some 10], [some 20], [some 30]].map some) :=
  ⟨by decide,
    (unsort_permutes [2, 0, 1] ([[some 10], [some 20], [some 30]] : List (List (Option Nat)))
      (by decide) (by decide)).1⟩

/-! ## Multi-column scanner: invariants of the scan -/

theorem multi_loop_invariant (sorted : List Int) (data_length : Nat) (I : MultiState → Prop)
    (hstep : ∀ s c, I s → I (multi_step sorted s c)) :
    ∀ (bs : List Nat) (s : MultiState), I s → I (multi_loop sorted data_length s bs) := by
  intro bs
  induction bs with
  | nil => intro s h; exact h
  | cons c cs ih =>
    intro s h
    simp only [multi_loop]
    split_ifs
    · exact h
    · exact ih _ (hstep s c h)

theorem multi_scan_invariant (sorted : List Int) (data_length : Nat) (I : MultiState → Prop)
    (hinit : I multi_init) (hstep : ∀ s c, I s → I (multi_step sorted s c))
    (hfinal : ∀ s, I s → I (multi_final sorted data_length s)) (file : List Nat) :
    I (multi_scan sorted data_length file) :=
  hfinal _ (multi_loop_invariant sorted data_length I hstep file multi_init hinit)

theorem dup_invariant_field_end (sorted : List Int) (j : Nat) (v : Int)
    (h1 : sorted[j]? = some v) (h2 : sorted[j + 1]? = some v) (s : MultiState)
    (h : dup_invariant j v s) : dup_invariant j v (multi_field_end sorted s) := by
  obtain ⟨ha, hb, hc⟩ := h
  unfold multi_field_end
  split_ifs with hm
  · have hlt : s.col_ptr ≤ j := by
      by_contra hcon
      have he : s.col_ptr = j + 1 := by omega
      rw [he, h2] at hm
      have := hb he
      simp only [Option.some.injEq] at hm
      omega
    refine ⟨by simp only; omega, ?_, ?_⟩
    · intro he
      simp only at he
      have hj : s.col_ptr = j := by omega
      rw [hj, h1] at hm
      simp only [Option.some.injEq] at hm
      simp only [Nat.cast_add, Nat.cast_one]
      omega
    · intro w hw
      simp only [List.mem_append, List.mem_singleton] at hw
      rcases hw with hw | hw
      · exact hc w hw
      · rw [hw]; exact hlt
  · refine ⟨ha, ?_, hc⟩
    intro he
    have := hb he
    simp only [Nat.cast_add, Nat.cast_one]
    omega

theorem dup_invariant_step (sorted : List Int) (j : Nat) (v : Int)
    (h1 : sorted[j]? = some v) (h2 : sorted[j + 1]? = some v) (s : MultiState) (c : Nat)
    (h : dup_invariant j v s) : dup_invariant j v (multi_step sorted s c) := by
  have hfe := dup_invariant_field_end sorted j v h1 h2 s h
  unfold multi_step
  split_ifs
  · exact ⟨by simp, by simp only; omega, hfe.2.2⟩
  · exact ⟨by simp, by simp only; omega, h.2.2⟩
  · exact hfe
  · exact h
  · exact h
  · exact h
  · exact h

theorem dup_invariant_final (sorted : List Int) (data_length j : Nat) (v : Int)
    (h2 : sorted[j + 1]? = some v) (s : MultiState)
    (h : dup_invariant j v s) : dup_invariant j v (multi_final sorted data_length s) := by
  obtain ⟨ha, hb, hc⟩ := h
  unfold multi_final
  split_ifs with h0 hm
  · have hlt : s.col_ptr ≤ j := by
      by_contra hcon
      have he : s.col_ptr = j + 1 := by omega
      rw [he, h2] at hm
      have := hb he
      simp only [Option.some.injEq] at hm
      omega
    refine ⟨ha, ?_, ?_⟩
    · intro he
      simp only at he
      omega
    · intro w hw
      simp only [List.mem_append, List.mem_singleton] at hw
      rcases hw with hw | hw
      · exact hc w hw
      · rw [hw]; exact hlt
  · refine ⟨ha, ?_, hc⟩
    intro he
    have := hb he
    simp only [Nat.cast_add, Nat.cast_one]
    omega
  · exact ⟨ha, hb, hc⟩

/-- C16: when the sorted copy of the request has `sorted[j] = sorted[j + 1]`,
then for every file and every budget each write of `get_columns_of_doubles`
goes to a sorted slot up to `j`: nothing is written into the buffer of slot
`j + 1` or of a later slot. -/
theorem multi_duplicate_slots_unwritten (col : List Int) (j : Nat) (v : Int)
    (h1 : (qsort_comp col)[j]? = some v) (h2 : (qsort_comp col)[j + 1]? = some v)
    (file : List Nat) (data_length : Nat) :
    ∀ w ∈ get_columns_writes file col data_length, w.slot < j + 1 := by
  have h := multi_scan_invariant (qsort_comp col) data_length (dup_invariant j v)
    ⟨by simp [multi_init], by simp [multi_init], by simp [multi_init]⟩
    (dup_invariant_step _ j v h1 h2) (dup_invariant_final _ data_length j v h2) file
  intro w hw
  exact Nat.lt_succ_of_le (h.2.2 w hw)

/-- C16 on the request `[2, 1, 1]`, sorted `[1, 1, 2]`, with the file
`a,b\n5,6\n`: the only write goes to slot 0. -/
theorem multi_duplicate_slots_unwritten_witness :
    get_columns_writes (bytes "a,b\n5,6\n") [2, 1, 1] 1 = [⟨0, 0, bytes "ab5"⟩] ∧
      ∀ w ∈ get_columns_writes (bytes "a,b\n5,6\n") [2, 1, 1] 1, w.slot < 0 + 1 :=
  ⟨by decide,
    multi_duplicate_slots_unwritten [2, 1, 1] 0 1 (by decide) (by decide) (bytes "a,b\n5,6\n") 1⟩

/-! ## Multi-column scanner: a request that holds column 0 -/

theorem qsort_comp_head_zero (col : List Int) (hcol : ∀ x ∈ col, 0 ≤ x ∧ x < 2147483648)
    (h0 : (0 : Int) ∈ col) : (qsort_comp col)[0]? = some 0 := by
  have hperm := qsort_comp_perm col
  have hsorted := qsort_comp_sorted col hcol
  have hmem : (0 : Int) ∈ qsort_comp col := hperm.mem_iff.mpr h0
  cases hq : qsort_comp col with
  | nil => rw [hq] at hmem; simp at hmem
  | cons y ys =>
    rw [hq] at hmem hsorted
    have hy : 0 ≤ y := (hcol y (hperm.mem_iff.mp (by rw [hq]; simp))).1
    have hle : y ≤ 0 := by
      rcases List.mem_cons.mp hmem with h | h
      · omega
      · exact List.rel_of_sorted_cons hsorted 0 h
    simp only [List.getElem?_cons_zero, Option.some.injEq]
    omega

theorem zero_head_field_end (sorted : List Int) (h0 : sorted[0]? = some 0) (s : MultiState)
    (h : s.col_ptr = 0 ∧ s.writes = []) :
    (multi_field_end sorted s).col_ptr = 0 ∧ (multi_field_end sorted s).writes = [] := by
  unfold multi_field_end
  have hm : ¬ sorted[s.col_ptr]? = some ((s.current_col : Int) + 1) := by
    rw [h.1, h0]
    simp only [Option.some.injEq]
    omega
  rw [if_neg hm]
  exact h

theorem zero_head_step (sorted : List Int) (h0 : sorted[0]? = some 0) (s : MultiState) (c : Nat)
    (h : s.col_ptr = 0 ∧ s.writes = []) :
    (multi_step sorted s c).col_ptr = 0 ∧ (multi_step sorted s c).writes = [] := by
  have hfe := zero_head_field_end sorted h0 s h
  unfold multi_step
  split_ifs
  · exact ⟨rfl, hfe.2⟩
  · exact ⟨rfl, h.2⟩
  · exact hfe
  · exact h
  · exact h
  · exact h
  · exact h

theorem zero_head_final (sorted : List Int) (data_length : Nat) (h0 : sorted[0]? = some 0)
    (s : MultiState) (h : s.col_ptr = 0 ∧ s.writes = []) :
    (multi_final sorted data_length s).col_ptr = 0 ∧
      (multi_final sorted data_length s).writes = [] := by
  unfold multi_final
  have hm : ¬ sorted[s.col_ptr]? = some ((s.current_col : Int) + 1) := by
    rw [h.1, h0]
    simp only [Option.some.injEq]
    omega
  rw [if_neg hm]
  split_ifs
  · exact h
  · exact h

/-- C17: for every request list of non-negative `int` indices that holds
column 0, every file and every budget, `get_columns_of_doubles` performs no
write into any output buffer. -/
theorem multi_zero_request_writes_nothing (col : List Int)
    (hcol : ∀ x ∈ col, 0 ≤ x ∧ x < 2147483648) (h0 : (0 : Int) ∈ col)
    (file : List Nat) (data_length : Nat) :
    get_columns_writes file col data_length = [] := by
  have hhead := qsort_comp_head_zero col hcol h0
  have h := multi_scan_invariant (qsort_comp col) data_length
    (fun s => s.col_ptr = 0 ∧ s.writes = []) ⟨rfl, rfl⟩
    (zero_head_step _ hhead) (zero_head_final _ data_length hhead) file
  exact h.2

/-- C17 on the example of the specification, request `[2, 0]`. -/
theorem multi_zero_request_writes_nothing_witness :
    get_columns_writes (bytes "a,b,c\n1,2,3\n4,5,6\n") [2, 0] 2 = [] :=
  multi_zero_request_writes_nothing [2, 0] (by decide) (by decide)
    (bytes "a,b,c\n1,2,3\n4,5,6\n") 2

/-! ## More inputs on which the code departs from the specification -/

/-- C11 at the file `a\n1\n2\n`, request `[1]`, budget 1, every allocation
succeeding: the loop is left through the `break` after `fclose`, and line 273
calls `fclose` again, two calls in all. When the table `data` or the buffer
`data[0]` is not obtained, the function returns without any call of `fclose`.
On a file that ends with the last wanted row there is one call. -/
theorem multi_fclose_not_once :
    get_columns_fclose_calls (bytes "a\n1\n2\n") [1] 1 alloc_all_ok = 2 ∧
      get_columns_fclose_calls (bytes "a\n1\n2\n") [1] 1
        { data_ok := false, failing_buffer := none, unsorted_ok := true } = 0 ∧
      get_columns_fclose_calls (bytes "a\n1\n2\n") [1] 1
        { data_ok := true, failing_buffer := some 0, unsorted_ok := true } = 0 ∧
      get_columns_fclose_calls (bytes "a\n1\n") [1] 1 alloc_all_ok = 1 := by
  decide

/-- C12 fails in every state: a newline byte read with the quote flag open
advances the row counter and resets the column index and `col_ptr`, and leaves
`temp` and the writes as they are. On the file `h\n"1\n2",5\n` with request
`[1]` and budget 2 the quoted field is stored at row 1 and row 0 is never
written. -/
theorem multi_newline_in_quotes (sorted : List Int) (s : MultiState) :
    (multi_step sorted { s with quote := true } NEWLINE).line = s.line + 1 ∧
      (multi_step sorted { s with quote := true } NEWLINE).current_col = 0 ∧
      (multi_step sorted { s with quote := true } NEWLINE).col_ptr = 0 ∧
      (multi_step sorted { s with quote := true } NEWLINE).temp = s.temp ∧
      (multi_step sorted { s with quote := true } NEWLINE).writes = s.writes ∧
      get_columns_writes (bytes "h\n\"1\n2\",5\n") [1] 2 = [⟨0, 1, bytes "h12"⟩] := by
  refine ⟨?_, ?_, ?_, ?_, ?_, by decide⟩ <;> simp [multi_step]

/-- C19 at the file `a,b\n1,2\n`, request `[1]` of size 1, budget 1: after the
match at the comma `col_ptr` is 1, and the newline branch reads `sorted[1]`,
past the end of the one-element array. -/
theorem multi_sorted_read_past_end :
    get_columns_sorted_reads (bytes "a,b\n1,2\n") [1] 1 = [0, 1] ∧
      ¬ ∀ p ∈ get_columns_sorted_reads (bytes "a,b\n1,2\n") [1] 1, p < [(1 : Int)].length := by
  decide

/-! ## Single-column scanner: the text collected from an arbitrary row -/

section SingleText

variable {V : Type} (strtod : List Nat → V)

theorem split_fields_eq_cons (xs : List Nat) :
    split_fields xs = (split_fields xs).headD [] :: (split_fields xs).tail := by
  cases xs with
  | nil => rfl
  | cons x xs =>
    simp only [split_fields]
    split_ifs <;> rfl

theorem getD_split_fields_succ (xs : List Nat) (k : Nat) :
    (split_fields xs).getD (k + 1) [] = (split_fields xs).tail.getD k [] := by
  conv_lhs => rw [split_fields_eq_cons xs]
  rfl

theorem getD_split_fields_zero (xs : List Nat) :
    (split_fields xs).getD 0 [] = (split_fields xs).headD [] := by
  conv_lhs => rw [split_fields_eq_cons xs]
  rfl

/-- Bytes in `item` after a row has been scanned: what was there, followed by
the bytes of the selected piece of the row without its quote bytes, as far as
the capacity allows. -/
theorem single_foldl_text (c : Nat) :
    ∀ (row : List Nat), NEWLINE ∉ row → ∀ s : SingleState V,
      (row.foldl (single_step strtod (c : Int)) s).item =
        if s.current_col ≤ c then
          s.item ++ (((split_fields row).getD (c - s.current_col) []).filter
            (fun b => decide (b ≠ QUOTATION))).take (ITEM_SIZE - s.item.length)
        else s.item := by
  intro row
  induction row with
  | nil =>
    intro _ s
    have h : ∀ k, (split_fields []).getD k [] = [] := by
      intro k
      cases k <;> rfl
    simp only [List.foldl_nil, h, List.filter_nil, List.take_nil, List.append_nil, ite_self]
  | cons x xs ih =>
    intro hrow s
    have hx : x ≠ NEWLINE := fun h => hrow (by simp [h])
    have hxs : NEWLINE ∉ xs := fun h => hrow (List.mem_cons_of_mem _ h)
    rw [List.foldl_cons, ih hxs]
    by_cases hd : x = DELIMITER
    · have hstep : single_step strtod (c : Int) s x = { s with current_col := s.current_col + 1 } := by
        unfold single_step
        rw [if_neg hx, if_pos hd]
      rw [hstep]
      simp only [split_fields, if_pos hd]
      by_cases h1 : s.current_col + 1 ≤ c
      · rw [if_pos h1, if_pos (by omega)]
        have : c - s.current_col = (c - (s.current_col + 1)) + 1 := by omega
        rw [this]
        rfl
      · rw [if_neg h1]
        by_cases h2 : s.current_col ≤ c
        · have : c - s.current_col = 0 := by omega
          rw [if_pos h2, this]
          simp
        · rw [if_neg h2]
    · simp only [split_fields, if_neg hd]
      by_cases heq : s.current_col = c
      · by_cases hq : x = QUOTATION
        · have hstep : single_step strtod (c : Int) s x = s := by
            unfold single_step
            rw [if_neg hx, if_neg hd, if_neg (fun h => h.2.1 hq)]
          rw [hstep, if_pos (le_of_eq heq), if_pos (le_of_eq heq)]
          have : c - s.current_col = 0 := by omega
          rw [this, getD_split_fields_zero]
          simp [List.getD, hq]
        · by_cases hlen : s.item.length < ITEM_SIZE
          · have hstep : single_step strtod (c : Int) s x = { s with item := s.item ++ [x] } := by
              unfold single_step
              rw [if_neg hx, if_neg hd, if_pos ⟨by rw [heq], hq, hlen⟩]
            rw [hstep]
            simp only
            rw [if_pos (le_of_eq heq), if_pos (le_of_eq heq)]
            have h0 : c - s.current_col = 0 := by omega
            rw [h0, getD_split_fields_zero]
            have h1 : ITEM_SIZE - s.item.length = (ITEM_SIZE - (s.item ++ [x]).length) + 1 := by
              simp only [List.length_append, List.length_singleton]
              omega
            rw [h1]
            simp [List.getD, hq]
          · have hstep : single_step strtod (c : Int) s x = s := by
              unfold single_step
              rw [if_neg hx, if_neg hd, if_neg (fun h => hlen h.2.2)]
            have h0 : ITEM_SIZE - s.item.length = 0 := by omega
            rw [hstep, if_pos (le_of_eq heq), if_pos (le_of_eq heq), h0]
            simp
      · have hstep : single_step strtod (c : Int) s x = s := by
          unfold single_step
          rw [if_neg hx, if_neg hd, if_neg (fun h => heq (by exact_mod_cast h.1))]
        rw [hstep]
        by_cases h2 : s.current_col ≤ c
        · rw [if_pos h2, if_pos h2]
          obtain ⟨k, hk⟩ : ∃ k, c - s.current_col = k + 1 := ⟨c - s.current_col - 1, by omega⟩
          rw [hk, getD_split_fields_succ]
          rfl
        · rw [if_neg h2, if_neg h2]

/-- From the state at the start of a row, the scan of the row leaves in `item`
the text of column `c` of the row. -/
theorem single_foldl_column_text (c : Nat) (row : List Nat) (hrow : NEWLINE ∉ row)
    (s : SingleState V) (hcol : s.current_col = 0) (hitem : s.item = []) :
    (row.foldl (single_step strtod (c : Int)) s).item = column_text c row := by
  rw [single_foldl_text strtod c row hrow s, hcol, hitem]
  simp [column_text]

end SingleText

/-! ## Single-column scanner: one row of a file -/

section SingleRow

variable {V : Type} (strtod : List Nat → V) (col : Int) (length : Nat)

theorem single_step_keeps (s : SingleState V) (c i : Nat) (hi : i < s.count) :
    (single_step strtod col s c).ret[i]? = s.ret[i]? ∧
      s.count ≤ (single_step strtod col s c).count := by
  unfold single_step
  split_ifs
  · exact ⟨List.getElem?_set_ne (by omega), by simp⟩
  · exact ⟨rfl, le_refl _⟩
  · exact ⟨rfl, le_refl _⟩
  · exact ⟨rfl, le_refl _⟩
  · exact ⟨rfl, le_refl _⟩

theorem single_loop_keeps (i : Nat) :
    ∀ (bs : List Nat) (s : SingleState V), i < s.count →
      (single_loop strtod col length s bs).ret[i]? = s.ret[i]? ∧
        i < (single_loop strtod col length s bs).count := by
  intro bs
  induction bs with
  | nil => intro s hi; exact ⟨rfl, hi⟩
  | cons c cs ih =>
    intro s hi
    simp only [single_loop]
    split_ifs
    · exact ⟨rfl, hi⟩
    · obtain ⟨h1, h2⟩ := single_step_keeps strtod col s c i hi
      obtain ⟨h3, h4⟩ := ih (single_step strtod col s c) (by omega)
      exact ⟨h3.trans h1, h4⟩

theorem single_final_keeps (s : SingleState V) (i : Nat) (hi : i < s.count) :
    (single_final strtod length s).ret[i]? = s.ret[i]? := by
  unfold single_final
  split_ifs
  · exact List.getElem?_set_ne (by omega)
  · rfl

/-- Lines in front of a row: after `n` of them the scanner is at the start of
a row with `count` advanced by `n`. -/
theorem single_loop_lines :
    ∀ (rows : List (List Nat)) (rest : List Nat) (ret : List V) (k : Nat),
      (∀ r ∈ rows, NEWLINE ∉ r) → k + rows.length < length →
      ∃ ret2 : List V, ret2.length = ret.length ∧
        single_loop strtod col length
          { ret := ret, count := k, item := [], current_col := 0, valid := true }
          (lines_bytes rows ++ rest) =
        single_loop strtod col length
          { ret := ret2, count := k + rows.length, item := [], current_col := 0, valid := true }
          rest := by
  intro rows
  induction rows with
  | nil => intro rest ret k _ _; exact ⟨ret, rfl, rfl⟩
  | cons r rs ih =>
    intro rest ret k hrows hk
    simp only [List.length_cons] at hk
    simp only [lines_bytes, List.append_assoc, List.cons_append]
    rw [single_loop_line strtod col length r _ (hrows r (by simp)) _ rfl (by simp only; omega)]
    obtain ⟨ret2, h1, h2⟩ := ih rest
      (ret.set k (strtod (List.foldl (single_step strtod col)
        { ret := ret, count := k, item := [], current_col := 0, valid := true } r).item))
      (k + 1) (fun x hx => hrows x (List.mem_cons_of_mem _ hx)) (by omega)
    refine ⟨ret2, by simpa using h1, ?_⟩
    rw [h2]
    simp only [List.length_cons]
    have : k + 1 + rs.length = k + (rs.length + 1) := by omega
    rw [this]

/-- A row within the budget, newline-terminated or last in the file: the entry
at `count` is the conversion of what the scan of the row leaves in `item`. -/
theorem single_row_entry (row ending : List Nat) (hrow : NEWLINE ∉ row)
    (hend : ending = [] ∨ ∃ tail, ending = NEWLINE :: tail) (s : SingleState V)
    (hv : s.valid = true) (hc : s.count < length) (hlen : s.ret.length = length) :
    (single_final strtod length (single_loop strtod col length s (row ++ ending))).ret[s.count]? =
      some (strtod (row.foldl (single_step strtod col) s).item) := by
  obtain ⟨h1, h2, h3⟩ := single_foldl_frame strtod col row hrow s
  rcases hend with rfl | ⟨tail, rfl⟩
  · rw [single_loop_append strtod col length row [] hrow s (by omega)]
    simp only [single_loop, single_final, h2, h3, hv, hc, and_self, if_true, h1]
    rw [List.getElem?_set_self (by omega)]
  · rw [single_loop_line strtod col length row tail hrow s hv (by omega)]
    have hk := single_loop_keeps strtod col length s.count tail
      { ret := s.ret.set s.count (strtod (row.foldl (single_step strtod col) s).item),
        count := s.count + 1, item := [], current_col := 0, valid := true } (by simp)
    rw [single_final_keeps strtod length _ s.count hk.2, hk.1]
    simp only
    rw [List.getElem?_set_self (by omega)]

/-- A file with a header line and `n` lines in front of a row: the entry `n` of
the result is the conversion of what the scan of the row leaves in `item`,
starting from the state at the start of a row. -/
theorem single_file_row_entry [Zero V] (header : List Nat) (rows : List (List Nat))
    (row ending : List Nat) (hheader : NEWLINE ∉ header) (hrows : ∀ r ∈ rows, NEWLINE ∉ r)
    (hrow : NEWLINE ∉ row) (hend : ending = [] ∨ ∃ tail, ending = NEWLINE :: tail)
    (hbudget : rows.length < length) :
    ∃ ret : List V,
      (get_column_of_doubles strtod (csv_file header rows ++ (row ++ ending)) col
        length)[rows.length]? =
      some (strtod (row.foldl (single_step strtod col)
        { ret := ret, count := rows.length, item := [], current_col := 0, valid := true }).item) := by
  obtain ⟨ret, h1, h2⟩ := single_loop_lines strtod col length rows (row ++ ending)
    (List.replicate length 0) 0 hrows (by omega)
  refine ⟨ret, ?_⟩
  unfold get_column_of_doubles csv_file
  simp only [List.append_assoc, List.cons_append]
  rw [single_loop_header strtod col length header _ hheader (single_init V length) rfl
    (by simp only [single_init]; omega)]
  simp only [single_init]
  rw [h2]
  simp only [Nat.zero_add]
  exact single_row_entry strtod col length row ending hrow hend _ rfl hbudget
    (by simpa using h1)

end SingleRow

theorem column_text_quoted_zero (rest : List Nat) :
    column_text 0 (quoted_1234 ++ rest) = [49] := by
  simp [column_text, quoted_1234, split_fields, QUOTATION, DELIMITER, ITEM_SIZE]

theorem column_text_quoted_one (rest : List Nat)
    (hfield : rest = [] ∨ ∃ more, rest = DELIMITER :: more) :
    column_text 1 (quoted_1234 ++ rest) = [50, 51, 52] := by
  rcases hfield with rfl | ⟨more, rfl⟩
  · simp [column_text, quoted_1234, split_fields, QUOTATION, DELIMITER, ITEM_SIZE]
  · simp [column_text, quoted_1234, split_fields, QUOTATION, DELIMITER, ITEM_SIZE]

/-! ## More claims on the single-column scanner -/

/-- C13: quote bytes are dropped and do not protect delimiters. For every file
whose data row `r` (counted from 0, within the budget, newline-terminated or
last in the file) begins with the quoted field `"1,234"`, the entry `r` of the
result is the conversion of the text `1` for column 0 and of the text `234` for
column 1; and a comma increments the column index in every state. -/
theorem single_quoted_field_split {V : Type} [Zero V] (strtod : List Nat → V)
    (header : List Nat) (rows : List (List Nat)) (rest ending : List Nat) (L : Nat)
    (hheader : NEWLINE ∉ header) (hrows : ∀ r ∈ rows, NEWLINE ∉ r) (hrest : NEWLINE ∉ rest)
    (hfield : rest = [] ∨ ∃ more, rest = DELIMITER :: more)
    (hend : ending = [] ∨ ∃ tail, ending = NEWLINE :: tail) (hbudget : rows.length < L) :
    (get_column_of_doubles strtod (csv_file header rows ++ ((quoted_1234 ++ rest) ++ ending))
        0 L)[rows.length]? = some (strtod [49]) ∧
      (get_column_of_doubles strtod (csv_file header rows ++ ((quoted_1234 ++ rest) ++ ending))
        1 L)[rows.length]? = some (strtod [50, 51, 52]) ∧
      ∀ (col : Int) (s : SingleState V),
        (single_step strtod col s DELIMITER).current_col = s.current_col + 1 := by
  have hrow : NEWLINE ∉ quoted_1234 ++ rest := by
    simp only [List.mem_append, not_or]
    exact ⟨by decide, hrest⟩
  refine ⟨?_, ?_, ?_⟩
  · obtain ⟨ret, h⟩ := single_file_row_entry strtod ((0 : Nat) : Int) L header rows
      (quoted_1234 ++ rest) ending hheader hrows hrow hend hbudget
    rw [single_foldl_column_text strtod 0 _ hrow _ rfl rfl, column_text_quoted_zero] at h
    exact h
  · obtain ⟨ret, h⟩ := single_file_row_entry strtod ((1 : Nat) : Int) L header rows
      (quoted_1234 ++ rest) ending hheader hrows hrow hend hbudget
    rw [single_foldl_column_text strtod 1 _ hrow _ rfl rfl,
      column_text_quoted_one rest hfield] at h
    exact h
  · intro col s
    simp [single_step, DELIMITER, NEWLINE]

/-- C13 on the file `h\n"1,234",7\n`: column 0 gives 1 and column 1 gives
234. -/
theorem single_quoted_field_split_witness :
    get_column_of_doubles digits_value (bytes "h\n\"1,234\",7\n") 0 1 = [1] ∧
      get_column_of_doubles digits_value (bytes "h\n\"1,234\",7\n") 1 1 = [234] ∧
      (get_column_of_doubles digits_value
        (csv_file (bytes "h") [] ++ ((quoted_1234 ++ bytes ",7") ++ [NEWLINE])) 1 1)[0]? =
        some (digits_value [50, 51, 52]) :=
  ⟨by decide, by decide,
    (single_quoted_field_split digits_value (bytes "h") [] (bytes ",7") [NEWLINE] 1 (by decide)
      (by decide) (by decide) (Or.inr ⟨bytes "7", rfl⟩) (Or.inr ⟨[], rfl⟩) (by decide)).2.1⟩

/-- C14: a final record without a trailing newline is still extracted. For
every file made of a header line, `N - 1` newline-terminated data rows and a
last data row that is not newline-terminated, and every budget `L ≥ N`, entry
`N - 1` of the result is the conversion of the text of the selected column in
the last row; when that row is made of fields without quotes shorter than 256
bytes, this text is the field `c`. -/
theorem single_last_row_extracted {V : Type} [Zero V] (strtod : List Nat → V)
    (header : List Nat) (rows : List (List Nat)) (c L : Nat)
    (hheader : NEWLINE ∉ header) (hrows : ∀ r ∈ rows, NEWLINE ∉ r)
    (hbudget : rows.length < L) :
    (∀ last : List Nat, NEWLINE ∉ last →
      (get_column_of_doubles strtod (csv_file header rows ++ last) (c : Int) L)[rows.length]? =
        some (strtod (column_text c last))) ∧
      ∀ fs : List (List Nat), fs ≠ [] → (∀ f ∈ fs, f.length < ITEM_SIZE ∧ plain_field f) →
        (get_column_of_doubles strtod (csv_file header rows ++ row_bytes fs) (c : Int)
          L)[rows.length]? = some (strtod (fs.getD c [])) := by
  constructor
  · intro last hlast
    obtain ⟨ret, h⟩ := single_file_row_entry strtod (c : Int) L header rows last [] hheader hrows
      hlast (Or.inl rfl) hbudget
    rw [single_foldl_column_text strtod c _ hlast _ rfl rfl, List.append_nil] at h
    exact h
  · intro fs hne hfs
    have hnl : NEWLINE ∉ row_bytes fs := row_bytes_no_newline fs (fun f hf => (hfs f hf).2)
    obtain ⟨ret, h⟩ := single_file_row_entry strtod (c : Int) L header rows (row_bytes fs) []
      hheader hrows hnl (Or.inl rfl) hbudget
    rw [single_foldl_row strtod c fs _ hne hfs (fun _ => rfl), List.append_nil] at h
    rw [h]
    by_cases hc : c < fs.length
    · simp [hc]
    · simp only [Nat.zero_le, Nat.zero_add, hc, and_false, if_false, Nat.sub_zero]
      rw [List.getD_eq_default _ _ (by omega)]

/-- C14 on the file `a,b\n1,2\n3,4` with column 1 and budget 2: entry 1 is
the conversion of `4`. -/
theorem single_last_row_extracted_witness :
    get_column_of_doubles digits_value (bytes "a,b\n1,2\n3,4") 1 2 = [2, 4] ∧
      (get_column_of_doubles digits_value (csv_file (bytes "a,b") [bytes "1,2"] ++ bytes "3,4")
        1 2)[1]? = some (digits_value (column_text 1 (bytes "3,4"))) :=
  ⟨by decide,
    (single_last_row_extracted digits_value (bytes "a,b") [bytes "1,2"] 1 2 (by decide)
      (by decide) (by decide)).1 (bytes "3,4") (by decide)⟩

/-! ## Multi-column scanner: header line and fields without quotes -/

theorem multi_step_plain (sorted : List Int) (s : MultiState) (x : Nat) (h1 : x ≠ NEWLINE)
    (h2 : x ≠ DELIMITER) (h3 : x ≠ QUOTATION) :
    multi_step sorted s x =
      { s with temp := s.temp ++ [x].take (ITEM_SIZE - 1 - s.temp.length) } := by
  unfold multi_step
  rw [if_neg h1, if_neg h2, if_neg h3]
  by_cases hlen : s.temp.length < ITEM_SIZE - 1
  · rw [if_pos hlen]
    have : ITEM_SIZE - 1 - s.temp.length = (ITEM_SIZE - 1 - s.temp.length - 1) + 1 := by omega
    rw [this]
    simp
  · rw [if_neg hlen]
    have : ITEM_SIZE - 1 - s.temp.length = 0 := by omega
    rw [this]
    simp

/-- Scan of a field without quotes: only `temp` changes, by the bytes of the
field as far as the capacity of 255 allows. -/
theorem multi_foldl_field (sorted : List Int) (f : List Nat) (hf : plain_field f) :
    ∀ s : MultiState, f.foldl (multi_step sorted) s =
      { s with temp := s.temp ++ f.take (ITEM_SIZE - 1 - s.temp.length) } := by
  induction f with
  | nil => intro s; simp
  | cons x xs ih =>
    intro s
    obtain ⟨h1, h2, h3⟩ := hf
    have hxs : plain_field xs :=
      ⟨fun h => h1 (List.mem_cons_of_mem _ h), fun h => h2 (List.mem_cons_of_mem _ h),
        fun h => h3 (List.mem_cons_of_mem _ h)⟩
    rw [List.foldl_cons, multi_step_plain sorted s x (fun h => h1 (by simp [h]))
      (fun h => h2 (by simp [h])) (fun h => h3 (by simp [h])), ih hxs]
    by_cases hlen : s.temp.length < ITEM_SIZE - 1
    · obtain ⟨n, hn⟩ : ∃ n, ITEM_SIZE - 1 - s.temp.length = n + 1 :=
        ⟨ITEM_SIZE - 1 - s.temp.length - 1, by omega⟩
      have e2 : ITEM_SIZE - 1 - (s.temp.length + 1) = n := by omega
      simp [hn, e2]
    · have e1 : ITEM_SIZE - 1 - s.temp.length = 0 := by omega
      simp [e1]

theorem multi_foldl_field_fits (sorted : List Int) (f : List Nat) (hf : plain_field f)
    (s : MultiState) (htemp : s.temp = []) (hlen : f.length < ITEM_SIZE - 1) :
    f.foldl (multi_step sorted) s = { s with temp := f } := by
  rw [multi_foldl_field sorted f hf s, htemp]
  simp only [List.length_nil, Nat.sub_zero, List.nil_append]
  rw [List.take_of_length_le (by omega)]

theorem multi_foldl_line_frame (sorted : List Int) (r : List Nat) (hr : NEWLINE ∉ r) :
    ∀ s : MultiState, (r.foldl (multi_step sorted) s).line = s.line := by
  induction r with
  | nil => intro s; rfl
  | cons c cs ih =>
    intro s
    have hc : c ≠ NEWLINE := fun h => hr (by simp [h])
    rw [List.foldl_cons, ih (fun h => hr (List.mem_cons_of_mem _ h)), multi_step_line, if_neg hc]

theorem multi_loop_append (sorted : List Int) (data_length : Nat) (r rest : List Nat)
    (hr : NEWLINE ∉ r) :
    ∀ s : MultiState, s.line ≠ (data_length : Int) →
      multi_loop sorted data_length s (r ++ rest) =
        multi_loop sorted data_length (r.foldl (multi_step sorted) s) rest := by
  induction r with
  | nil => intro s _; rfl
  | cons c cs ih =>
    intro s hs
    have hc : c ≠ NEWLINE := fun h => hr (by simp [h])
    simp only [List.cons_append, multi_loop, if_neg hs, List.foldl_cons]
    exact ih (fun h => hr (List.mem_cons_of_mem _ h)) _
      (by rw [multi_step_line, if_neg hc]; exact hs)

theorem multi_loop_line (sorted : List Int) (data_length : Nat) (r rest : List Nat)
    (hr : NEWLINE ∉ r) (s : MultiState) (hs : s.line ≠ (data_length : Int)) :
    multi_loop sorted data_length s (r ++ NEWLINE :: rest) =
      multi_loop sorted data_length
        (multi_step sorted (r.foldl (multi_step sorted) s) NEWLINE) rest := by
  rw [multi_loop_append sorted data_length r _ hr s hs]
  simp only [multi_loop]
  rw [if_neg (by rw [multi_foldl_line_frame sorted r hr]; exact hs)]

theorem multi_loop_done (sorted : List Int) (data_length : Nat) (s : MultiState) (bs : List Nat)
    (h : s.line = (data_length : Int)) : multi_loop sorted data_length s bs = s := by
  cases bs with
  | nil => rfl
  | cons c cs => simp [multi_loop, h]

/-- Scan of the header line: before the first newline only `temp` and the quote
flag change, and the quote flag is closed again after an even number of quote
bytes. -/
theorem multi_foldl_header (sorted : List Int) (h : List Nat) (hh : NEWLINE ∉ h) :
    ∀ s : MultiState, s.valid = false →
      ∃ T : List Nat, h.foldl (multi_step sorted) s =
        { s with temp := T,
                 quote := if h.count QUOTATION % 2 = 0 then s.quote else !s.quote } := by
  induction h with
  | nil => intro s _; exact ⟨s.temp, by simp⟩
  | cons x xs ih =>
    intro s hv
    have hx : x ≠ NEWLINE := fun e => hh (by simp [e])
    have hxs : NEWLINE ∉ xs := fun e => hh (List.mem_cons_of_mem _ e)
    rw [List.foldl_cons]
    by_cases hq : x = QUOTATION
    · have hstep : multi_step sorted s x = { s with quote := !s.quote } := by
        unfold multi_step
        rw [if_neg hx, if_neg (by rw [hq]; decide), if_pos hq]
      obtain ⟨T, hT⟩ := ih hxs { s with quote := !s.quote } hv
      refine ⟨T, ?_⟩
      rw [hstep, hT, hq, List.count_cons_self]
      by_cases hpar : List.count QUOTATION xs % 2 = 0
      · have : ¬ (List.count QUOTATION xs + 1) % 2 = 0 := by omega
        simp [hpar, this]
      · have : (List.count QUOTATION xs + 1) % 2 = 0 := by omega
        simp [hpar, this]
    · have hcount : List.count QUOTATION (x :: xs) = List.count QUOTATION xs :=
        List.count_cons_of_ne (fun e => hq e.symm) xs
      by_cases hd : x = DELIMITER
      · have hstep : multi_step sorted s x = s := by
          unfold multi_step
          rw [if_neg hx, if_pos hd, if_neg (by simp [hv])]
        obtain ⟨T, hT⟩ := ih hxs s hv
        exact ⟨T, by rw [hstep, hT, hcount]⟩
      · obtain ⟨T, hT⟩ := ih hxs
          { s with temp := s.temp ++ [x].take (ITEM_SIZE - 1 - s.temp.length) } hv
        exact ⟨T, by rw [multi_step_plain sorted s x hx hd hq, hT, hcount]⟩

/-! ## Multi-column scanner: a row without quotes under the request `[k]` -/

theorem multi_step_newline (sorted : List Int) (s : MultiState) (hv : s.valid = true)
    (hq : s.quote = false) :
    multi_step sorted s NEWLINE =
      { multi_field_end sorted s with
        line := (multi_field_end sorted s).line + 1, current_col := 0, col_ptr := 0,
        valid := true } := by
  simp [multi_step, hv, hq]

theorem multi_step_delimiter (sorted : List Int) (s : MultiState) (hv : s.valid = true)
    (hq : s.quote = false) : multi_step sorted s DELIMITER = multi_field_end sorted s := by
  simp [multi_step, hv, hq, DELIMITER, NEWLINE]

theorem multi_field_end_miss (k : Nat) (s : MultiState)
    (h : s.col_ptr ≠ 0 ∨ s.current_col + 1 ≠ k) :
    multi_field_end [(k : Int)] s = { s with current_col := s.current_col + 1, temp := [] } := by
  unfold multi_field_end
  have hm : ¬ [(k : Int)][s.col_ptr]? = some ((s.current_col : Int) + 1) := by
    rcases h with h | h
    · obtain ⟨n, hn⟩ : ∃ n, s.col_ptr = n + 1 := ⟨s.col_ptr - 1, by omega⟩
      rw [hn]
      simp
    · by_cases hp : s.col_ptr = 0
      · rw [hp]
        simp only [List.getElem?_cons_zero, Option.some.injEq]
        omega
      · obtain ⟨n, hn⟩ : ∃ n, s.col_ptr = n + 1 := ⟨s.col_ptr - 1, by omega⟩
        rw [hn]
        simp
  rw [if_neg hm]

theorem multi_field_end_hit (k : Nat) (s : MultiState) (hp : s.col_ptr = 0)
    (hk : s.current_col + 1 = k) :
    multi_field_end [(k : Int)] s =
      { s with current_col := s.current_col + 1,
               writes := s.writes ++ [{ slot := 0, row := s.line, text := s.temp }],
               col_ptr := 1, temp := [] } := by
  unfold multi_field_end
  have hm : [(k : Int)][s.col_ptr]? = some ((s.current_col : Int) + 1) := by
    rw [hp, ← hk]
    simp
  rw [if_pos hm, hp]

theorem multi_newline_miss (k : Nat) (s : MultiState) (T : List Nat) (hv : s.valid = true)
    (hq : s.quote = false) (h : s.col_ptr ≠ 0 ∨ s.current_col + 1 ≠ k) :
    multi_step [(k : Int)] { s with temp := T } NEWLINE =
      { line := s.line + 1, temp := [], current_col := 0, col_ptr := 0, valid := true,
        quote := false, writes := s.writes } := by
  rw [multi_step_newline _ { s with temp := T } hv hq,
    multi_field_end_miss k { s with temp := T } h]
  simp [hq]

theorem multi_newline_hit (k : Nat) (s : MultiState) (T : List Nat) (hv : s.valid = true)
    (hq : s.quote = false) (hp : s.col_ptr = 0) (hk : s.current_col + 1 = k) :
    multi_step [(k : Int)] { s with temp := T } NEWLINE =
      { line := s.line + 1, temp := [], current_col := 0, col_ptr := 0, valid := true,
        quote := false, writes := s.writes ++ [{ slot := 0, row := s.line, text := T }] } := by
  rw [multi_step_newline _ { s with temp := T } hv hq,
    multi_field_end_hit k { s with temp := T } hp hk]
  simp [hq]

theorem multi_delimiter_miss (k : Nat) (s : MultiState) (T : List Nat) (hv : s.valid = true)
    (hq : s.quote = false) (h : s.col_ptr ≠ 0 ∨ s.current_col + 1 ≠ k) :
    multi_step [(k : Int)] { s with temp := T } DELIMITER =
      { s with current_col := s.current_col + 1, temp := [] } := by
  rw [multi_step_delimiter _ { s with temp := T } hv hq,
    multi_field_end_miss k { s with temp := T } h]

theorem multi_delimiter_hit (k : Nat) (s : MultiState) (T : List Nat) (hv : s.valid = true)
    (hq : s.quote = false) (hp : s.col_ptr = 0) (hk : s.current_col + 1 = k) :
    multi_step [(k : Int)] { s with temp := T } DELIMITER =
      { s with current_col := s.current_col + 1,
               writes := s.writes ++ [{ slot := 0, row := s.line, text := T }],
               col_ptr := 1, temp := [] } := by
  rw [multi_step_delimiter _ { s with temp := T } hv hq,
    multi_field_end_hit k { s with temp := T } hp hk]

/-- A row scanned from a state in which the requested column is already
behind: nothing is written. -/
theorem multi_row_past (k : Nat) :
    ∀ (fs : List (List Nat)) (s : MultiState), (∀ f ∈ fs, plain_field f) →
      s.valid = true → s.quote = false → (s.col_ptr ≠ 0 ∨ k ≤ s.current_col) →
      multi_step [(k : Int)] ((row_bytes fs).foldl (multi_step [(k : Int)]) s) NEWLINE =
        { line := s.line + 1, temp := [], current_col := 0, col_ptr := 0, valid := true,
          quote := false, writes := s.writes } := by
  intro fs
  induction fs with
  | nil =>
    intro s _ hv hq hpast
    simp only [row_bytes, List.foldl_nil]
    exact multi_newline_miss k s s.temp hv hq (by omega)
  | cons f fs ih =>
    intro s hfs hv hq hpast
    have hf := hfs f (by simp)
    cases fs with
    | nil =>
      simp only [row_bytes]
      rw [multi_foldl_field _ f hf s, multi_newline_miss k s _ hv hq (by omega)]
    | cons g gs =>
      simp only [row_bytes, List.foldl_append, List.foldl_cons]
      rw [multi_foldl_field _ f hf s, multi_delimiter_miss k s _ hv hq (by omega)]
      rw [ih { s with current_col := s.current_col + 1, temp := [] }
        (fun x hx => hfs x (List.mem_cons_of_mem _ hx)) hv hq (by simp only; omega)]

/-- A row scanned from a state in front of the requested column: the field at
position `k - 1` is written at the current row into slot 0. -/
theorem multi_row_before (k : Nat) :
    ∀ (fs : List (List Nat)) (s : MultiState), fs ≠ [] →
      (∀ f ∈ fs, f.length < ITEM_SIZE - 1 ∧ plain_field f) →
      s.valid = true → s.quote = false → s.col_ptr = 0 → s.current_col < k →
      k ≤ s.current_col + fs.length → (s.current_col + 1 = k → s.temp = []) →
      multi_step [(k : Int)] ((row_bytes fs).foldl (multi_step [(k : Int)]) s) NEWLINE =
        { line := s.line + 1, temp := [], current_col := 0, col_ptr := 0, valid := true,
          quote := false,
          writes := s.writes ++
            [{ slot := 0, row := s.line, text := fs.getD (k - 1 - s.current_col) [] }] } := by
  intro fs
  induction fs with
  | nil => intro s h; exact absurd rfl h
  | cons f fs ih =>
    intro s _ hfs hv hq hp hlt hle htemp
    obtain ⟨hflen, hf⟩ := hfs f (by simp)
    cases fs with
    | nil =>
      simp only [List.length_singleton] at hle
      have hk : s.current_col + 1 = k := by omega
      simp only [row_bytes]
      rw [multi_foldl_field_fits _ f hf s (htemp hk) hflen, multi_newline_hit k s f hv hq hp hk]
      have h0 : k - 1 - s.current_col = 0 := by omega
      simp [h0]
    | cons g gs =>
      have hrest : ∀ x ∈ g :: gs, x.length < ITEM_SIZE - 1 ∧ plain_field x :=
        fun x hx => hfs x (List.mem_cons_of_mem _ hx)
      simp only [row_bytes, List.foldl_append, List.foldl_cons]
      by_cases hk : s.current_col + 1 = k
      · rw [multi_foldl_field_fits _ f hf s (htemp hk) hflen,
          multi_delimiter_hit k s f hv hq hp hk]
        rw [multi_row_past k (g :: gs)
          { s with current_col := s.current_col + 1,
                   writes := s.writes ++ [{ slot := 0, row := s.line, text := f }],
                   col_ptr := 1, temp := [] }
          (fun x hx => (hrest x hx).2) hv hq (Or.inl (by simp))]
        have h0 : k - 1 - s.current_col = 0 := by omega
        simp [h0]
      · rw [multi_foldl_field _ f hf s, multi_delimiter_miss k s _ hv hq (Or.inr hk)]
        simp only [List.length_cons] at hle
        rw [ih { s with current_col := s.current_col + 1, temp := [] } (by simp) hrest hv hq hp
          (by simp only; omega) (by simp only [List.length_cons]; omega) (fun _ => rfl)]
        obtain ⟨n, hn⟩ : ∃ n, k - 1 - s.current_col = n + 1 :=
          ⟨k - 1 - s.current_col - 1, by omega⟩
        have hn2 : k - 1 - (s.current_col + 1) = n := by omega
        simp [hn, hn2]

/-! ## Multi-column scanner: a whole file under the request `[k]` -/

/-- Scan of rows without quotes with `F` fields each under the request `[k]`,
`2 ≤ k ≤ F`, from the state at the start of row `n`: one write per row, up to
the budget. -/
theorem multi_rows_run (k F L : Nat) (hk : 2 ≤ k) (hkF : k ≤ F) :
    ∀ (rows : List (List (List Nat))) (W : List Write) (n : Nat) (T : List Nat),
      n ≤ L →
      (∀ r ∈ rows, r.length = F ∧ ∀ f ∈ r, f.length < ITEM_SIZE - 1 ∧ plain_field f) →
      (multi_final [(k : Int)] L (multi_loop [(k : Int)] L
        { line := (n : Int), temp := T, current_col := 0, col_ptr := 0, valid := true,
          quote := false, writes := W }
        (lines_bytes (rows.map row_bytes)))).writes =
        W ++ row_writes k n (rows.take (L - n)) := by
  intro rows
  induction rows with
  | nil =>
    intro W n T _ _
    simp only [List.map_nil, lines_bytes, multi_loop, List.take_nil, row_writes,
      List.append_nil]
    unfold multi_final
    have hm : ¬ [(k : Int)][0]? = some (((0 : Nat) : Int) + 1) := by
      simp only [List.getElem?_cons_zero, Option.some.injEq]
      omega
    simp only [hm, if_false]
    split_ifs <;> rfl
  | cons r rs ih =>
    intro W n T hn hrows
    by_cases hfull : n = L
    · rw [multi_loop_done _ _ _ _ (by simp [hfull])]
      have : ¬ ((n : Int) < (L : Int)) := by omega
      simp [multi_final, this, hfull, row_writes]
    · obtain ⟨hrF, hr⟩ := hrows r (by simp)
      have hnl : NEWLINE ∉ row_bytes r := row_bytes_no_newline r (fun f hf => (hr f hf).2)
      have hne : r ≠ [] := by
        intro h
        rw [h] at hrF
        simp only [List.length_nil] at hrF
        omega
      simp only [List.map_cons, lines_bytes]
      rw [multi_loop_line _ _ (row_bytes r) _ hnl _ (by simp only; omega)]
      rw [multi_row_before k r _ hne hr rfl rfl rfl (by simp only; omega)
        (by simp only; omega) (by simp only; omega)]
      have hcast : ((n : Int) + 1) = ((n + 1 : Nat) : Int) := by push_cast; rfl
      simp only [hcast]
      rw [ih _ (n + 1) [] (by omega) (fun x hx => hrows x (List.mem_cons_of_mem _ hx))]
      obtain ⟨m, hm⟩ : ∃ m, L - n = m + 1 := ⟨L - n - 1, by omega⟩
      have hm2 : L - (n + 1) = m := by omega
      simp [hm, hm2, row_writes]

/-- Effect of the writes of consecutive rows on one buffer. -/
theorem apply_row_writes {V : Type} (strtod : List Nat → V) (k : Nat) :
    ∀ (rs : List (List (List Nat))) (start : Nat) (buf : List (Option V)),
      start + rs.length ≤ buf.length →
      ∃ buf2 : List (Option V), buf2.length = buf.length ∧
        (row_writes k start rs).foldl (apply_write strtod) [buf] = [buf2] ∧
        ∀ r, buf2[r]? =
          if start ≤ r ∧ r < start + rs.length then
            some (some (strtod ((rs.getD (r - start) []).getD (k - 1) [])))
          else buf[r]? := by
  intro rs
  induction rs with
  | nil =>
    intro start buf _
    refine ⟨buf, rfl, rfl, fun r => ?_⟩
    have : ¬ (start ≤ r ∧ r < start + ([] : List (List (List Nat))).length) := by
      simp only [List.length_nil]
      omega
    rw [if_neg this]
  | cons r0 rs ih =>
    intro start buf hlen
    simp only [List.length_cons] at hlen
    obtain ⟨buf2, h1, h2, h3⟩ := ih (start + 1)
      (buf.set start (some (strtod (r0.getD (k - 1) [])))) (by simp only [List.length_set]; omega)
    refine ⟨buf2, by simpa using h1, ?_, fun r => ?_⟩
    · simp only [row_writes, List.foldl_cons]
      have hstep : apply_write strtod [buf]
          { slot := 0, row := (start : Int), text := r0.getD (k - 1) [] } =
          [buf.set start (some (strtod (r0.getD (k - 1) [])))] := by
        simp [apply_write, List.modify]
      rw [hstep, h2]
    · rw [h3 r]
      simp only [List.length_cons]
      by_cases hr : r = start
      · subst hr
        have c1 : ¬ (r + 1 ≤ r ∧ r < r + 1 + rs.length) := by omega
        have c2 : r ≤ r ∧ r < r + (rs.length + 1) := by omega
        rw [if_neg c1, if_pos c2, List.getElem?_set_self (by omega)]
        simp
      · by_cases hin : start + 1 ≤ r ∧ r < start + 1 + rs.length
        · have c2 : start ≤ r ∧ r < start + (rs.length + 1) := by omega
          rw [if_pos hin, if_pos c2]
          obtain ⟨m, hm⟩ : ∃ m, r - start = m + 1 := ⟨r - start - 1, by omega⟩
          have hm2 : r - (start + 1) = m := by omega
          simp [hm, hm2]
        · have c2 : ¬ (start ≤ r ∧ r < start + (rs.length + 1)) := by omega
          rw [if_neg hin, if_neg c2, List.getElem?_set_ne (fun e => hr e.symm)]

/-- State of the multi-column scanner after a header line with an even number
of quote bytes: row 0, quote flag closed, the header bytes still in `temp`. -/
theorem multi_header_state (sorted : List Int) (header : List Nat)
    (hheader : NEWLINE ∉ header) (hquotes : header.count QUOTATION % 2 = 0) :
    ∃ T : List Nat,
      multi_step sorted (header.foldl (multi_step sorted) multi_init) NEWLINE =
        { line := ((0 : Nat) : Int), temp := T, current_col := 0, col_ptr := 0, valid := true,
          quote := false, writes := [] } := by
  obtain ⟨T, hT⟩ := multi_foldl_header sorted header hheader multi_init rfl
  refine ⟨T, ?_⟩
  rw [hT]
  simp [multi_step, multi_init, hquotes]

/-! ## Multi-column scanner: reads of `sorted`, the `break` and the rows written -/

theorem multi_step_valid (sorted : List Int) (s : MultiState) (x : Nat) (hx : x ≠ NEWLINE) :
    (multi_step sorted s x).valid = s.valid := by
  unfold multi_step multi_field_end
  rw [if_neg hx]
  split_ifs <;> rfl

theorem multi_step_reads_invalid (s : MultiState) (c : Nat) (hv : s.valid = false) :
    multi_step_reads s c = [] := by
  unfold multi_step_reads
  split_ifs <;> simp_all

theorem multi_step_reads_plain (s : MultiState) (x : Nat) (h1 : x ≠ NEWLINE)
    (h2 : x ≠ DELIMITER) : multi_step_reads s x = [] := by
  unfold multi_step_reads
  rw [if_neg h1, if_neg h2]

theorem multi_loop_reads_end (sorted : List Int) (data_length : Nat) (s : MultiState)
    (c : Nat) (rest : List Nat) (hc : c = NEWLINE ∨ c = DELIMITER) (hv : s.valid = true)
    (hq : s.quote = false) (hs : s.line ≠ (data_length : Int)) :
    multi_loop_reads sorted data_length s (c :: rest) =
      s.col_ptr :: multi_loop_reads sorted data_length (multi_step sorted s c) rest := by
  simp only [multi_loop_reads, if_neg hs]
  rcases hc with rfl | rfl
  · simp [multi_step_reads, hv, hq]
  · simp [multi_step_reads, hv, hq, DELIMITER, NEWLINE]

theorem multi_loop_reads_header (sorted : List Int) (data_length : Nat) (h rest : List Nat)
    (hh : NEWLINE ∉ h) :
    ∀ s : MultiState, s.valid = false → s.line ≠ (data_length : Int) →
      multi_loop_reads sorted data_length s (h ++ NEWLINE :: rest) =
        multi_loop_reads sorted data_length
          (multi_step sorted (h.foldl (multi_step sorted) s) NEWLINE) rest := by
  induction h with
  | nil =>
    intro s hv hs
    simp only [List.nil_append, multi_loop_reads, if_neg hs, List.foldl_nil,
      multi_step_reads_invalid s NEWLINE hv, List.nil_append]
  | cons x xs ih =>
    intro s hv hs
    have hx : x ≠ NEWLINE := fun e => hh (by simp [e])
    simp only [List.cons_append, multi_loop_reads, if_neg hs, List.foldl_cons,
      multi_step_reads_invalid s x hv, List.nil_append]
    exact ih (fun e => hh (List.mem_cons_of_mem _ e)) _
      (by rw [multi_step_valid sorted s x hx]; exact hv)
      (by rw [multi_step_line, if_neg hx]; exact hs)

theorem multi_loop_reads_field (sorted : List Int) (data_length : Nat) (f rest : List Nat)
    (hf : plain_field f) :
    ∀ s : MultiState, s.line ≠ (data_length : Int) →
      multi_loop_reads sorted data_length s (f ++ rest) =
        multi_loop_reads sorted data_length (f.foldl (multi_step sorted) s) rest := by
  induction f with
  | nil => intro s _; rfl
  | cons x xs ih =>
    intro s hs
    obtain ⟨h1, h2, h3⟩ := hf
    have hx1 : x ≠ NEWLINE := fun e => h1 (by simp [e])
    have hx2 : x ≠ DELIMITER := fun e => h2 (by simp [e])
    have hxs : plain_field xs :=
      ⟨fun h => h1 (List.mem_cons_of_mem _ h), fun h => h2 (List.mem_cons_of_mem _ h),
        fun h => h3 (List.mem_cons_of_mem _ h)⟩
    simp only [List.cons_append, multi_loop_reads, if_neg hs, List.foldl_cons,
      multi_step_reads_plain s x hx1 hx2, List.nil_append]
    exact ih hxs _ (by rw [multi_step_line, if_neg hx1]; exact hs)

/-- Reads of `sorted` during a row that ends with the requested column: one at
each comma and one at the newline, all at index 0. -/
theorem multi_loop_reads_row (k data_length : Nat) (rest : List Nat) :
    ∀ (fs : List (List Nat)) (s : MultiState), fs ≠ [] →
      (∀ f ∈ fs, f.length < ITEM_SIZE - 1 ∧ plain_field f) →
      s.valid = true → s.quote = false → s.col_ptr = 0 → s.line ≠ (data_length : Int) →
      s.current_col + fs.length = k →
      multi_loop_reads [(k : Int)] data_length s (row_bytes fs ++ NEWLINE :: rest) =
        List.replicate fs.length 0 ++
          multi_loop_reads [(k : Int)] data_length
            (multi_step [(k : Int)] ((row_bytes fs).foldl (multi_step [(k : Int)]) s) NEWLINE)
            rest := by
  intro fs
  induction fs with
  | nil => intro s h; exact absurd rfl h
  | cons f fs ih =>
    intro s _ hfs hv hq hp hs hlen
    obtain ⟨_, hf⟩ := hfs f (by simp)
    cases fs with
    | nil =>
      simp only [row_bytes]
      rw [multi_loop_reads_field _ _ f _ hf s hs, multi_foldl_field _ f hf s,
        multi_loop_reads_end _ _
          { s with temp := s.temp ++ f.take (ITEM_SIZE - 1 - s.temp.length) } NEWLINE rest
          (Or.inl rfl) hv hq hs]
      simp [hp]
    | cons g gs =>
      simp only [List.length_cons] at hlen
      simp only [row_bytes, List.append_assoc, List.cons_append, List.foldl_append,
        List.foldl_cons]
      rw [multi_loop_reads_field _ _ f _ hf s hs, multi_foldl_field _ f hf s,
        multi_loop_reads_end _ _
          { s with temp := s.temp ++ f.take (ITEM_SIZE - 1 - s.temp.length) } DELIMITER _
          (Or.inr rfl) hv hq hs,
        multi_delimiter_miss k s _ hv hq (Or.inr (by omega))]
      rw [ih { s with current_col := s.current_col + 1, temp := [] } (by simp)
        (fun x hx => hfs x (List.mem_cons_of_mem _ hx)) hv hq hp hs
        (by simp only [List.length_cons]; omega)]
      simp [hp, List.replicate_succ]

/-- Reads of `sorted` during the rows of a file whose rows all end with the
requested column: all at index 0. -/
theorem multi_loop_reads_rows (k data_length : Nat) (hk : 2 ≤ k) :
    ∀ (rows : List (List (List Nat))) (W : List Write) (n : Nat) (T : List Nat),
      n + rows.length = data_length →
      (∀ r ∈ rows, r.length = k ∧ ∀ f ∈ r, f.length < ITEM_SIZE - 1 ∧ plain_field f) →
      ∀ p ∈ multi_loop_reads [(k : Int)] data_length
        { line := (n : Int), temp := T, current_col := 0, col_ptr := 0, valid := true,
          quote := false, writes := W }
        (lines_bytes (rows.map row_bytes)), p = 0 := by
  intro rows
  induction rows with
  | nil =>
    intro W n T _ _ p hp
    simp [lines_bytes, multi_loop_reads] at hp
  | cons r rs ih =>
    intro W n T hn hrows p hp
    simp only [List.length_cons] at hn
    obtain ⟨hrk, hr⟩ := hrows r (by simp)
    have hne : r ≠ [] := by
      intro h
      rw [h] at hrk
      simp only [List.length_nil] at hrk
      omega
    simp only [List.map_cons, lines_bytes] at hp
    rw [multi_loop_reads_row k data_length _ r _ hne hr rfl rfl rfl (by simp only; omega)
      (by simp only; omega)] at hp
    rw [multi_row_before k r _ hne hr rfl rfl rfl (by simp only; omega)
      (by simp only; omega) (by simp only; omega)] at hp
    rcases List.mem_append.mp hp with h | h
    · exact List.eq_of_mem_replicate h
    · have hcast : ((n : Int) + 1) = ((n + 1 : Nat) : Int) := by push_cast; rfl
      simp only [hcast] at h
      exact ih _ (n + 1) [] (by omega) (fun x hx => hrows x (List.mem_cons_of_mem _ hx)) p h

theorem multi_loop_breaks_line_full (sorted : List Int) (data_length : Nat) :
    ∀ (q : List Nat) (s : MultiState),
      s.line + (q.count NEWLINE : Int) + 1 ≤ (data_length : Int) →
      multi_loop_breaks sorted data_length s (q ++ [NEWLINE]) = false := by
  intro q
  induction q with
  | nil =>
    intro s h
    have hs : s.line ≠ (data_length : Int) := by simp at h; omega
    simp [multi_loop_breaks, hs]
  | cons c cs ih =>
    intro s h
    have hs : s.line ≠ (data_length : Int) := by omega
    simp only [List.cons_append, multi_loop_breaks, if_neg hs]
    apply ih
    rw [multi_step_line]
    by_cases hc : c = NEWLINE
    · subst hc
      simp only [List.count_cons_self, if_true] at h ⊢
      push_cast at h
      omega
    · have hc2 : NEWLINE ≠ c := fun h => hc h.symm
      rw [List.count_cons_of_ne hc2] at h
      simp only [hc, if_false]
      exact h

/-- A file made of lines ends with a newline and holds one newline per line. -/
theorem lines_bytes_split :
    ∀ (rows : List (List Nat)) (front : List Nat), (∀ r ∈ rows, NEWLINE ∉ r) →
      ∃ q : List Nat, front ++ NEWLINE :: lines_bytes rows = q ++ [NEWLINE] ∧
        q.count NEWLINE = front.count NEWLINE + rows.length := by
  intro rows
  induction rows with
  | nil => intro front _; exact ⟨front, rfl, by simp⟩
  | cons r rs ih =>
    intro front hrows
    obtain ⟨q, h1, h2⟩ := ih (front ++ NEWLINE :: r)
      (fun x hx => hrows x (List.mem_cons_of_mem _ hx))
    refine ⟨q, ?_, ?_⟩
    · rw [← h1]
      simp [lines_bytes]
    · rw [h2]
      have hr : List.count NEWLINE r = 0 := List.count_eq_zero_of_not_mem (hrows r (by simp))
      simp only [List.count_append, List.count_cons_self, hr, List.length_cons]
      omega

theorem row_writes_bounds (k : Nat) :
    ∀ (rs : List (List (List Nat))) (start : Nat) (w : Write), w ∈ row_writes k start rs →
      w.slot = 0 ∧ (start : Int) ≤ w.row ∧ w.row < ((start + rs.length : Nat) : Int) := by
  intro rs
  induction rs with
  | nil => intro start w h; simp [row_writes] at h
  | cons r rs ih =>
    intro start w h
    simp only [row_writes, List.mem_cons] at h
    rcases h with h | h
    · subst h
      refine ⟨rfl, le_refl _, ?_⟩
      simp only [List.length_cons]
      push_cast
      omega
    · obtain ⟨h1, h2, h3⟩ := ih (start + 1) w h
      simp only [List.length_cons]
      refine ⟨h1, ?_, ?_⟩
      · push_cast at h2
        omega
      · push_cast at h3 ⊢
        omega

/-- On a file whose header has an even number of quote bytes and whose rows all
have `k` fields without quotes, the call with the request `[k]` and the number
of rows as budget stays within defined behaviour, and its writes are one per
row. -/
theorem multi_last_column_defined (header : List Nat) (rows : List (List (List Nat))) (k : Nat)
    (hheader : NEWLINE ∉ header) (hquotes : header.count QUOTATION % 2 = 0)
    (hrows : ∀ r ∈ rows, r.length = k ∧ ∀ f ∈ r, f.length < ITEM_SIZE - 1 ∧ plain_field f)
    (hk : 2 ≤ k) :
    get_columns_defined (csv_file header (rows.map row_bytes)) [(k : Int)] rows.length = true ∧
      get_columns_writes (csv_file header (rows.map row_bytes)) [(k : Int)] rows.length =
        row_writes k 0 rows := by
  have hsorted : qsort_comp [(k : Int)] = [(k : Int)] := rfl
  have hnl : ∀ r ∈ rows.map row_bytes, NEWLINE ∉ r := by
    intro r hr
    obtain ⟨fs, hfs, rfl⟩ := List.mem_map.mp hr
    exact row_bytes_no_newline fs (fun f hf => ((hrows fs hfs).2 f hf).2)
  obtain ⟨q, hq1, hq2⟩ := lines_bytes_split (rows.map row_bytes) header hnl
  have hcount : q.count NEWLINE = rows.length := by
    rw [hq2, List.count_eq_zero_of_not_mem hheader]
    simp
  have hinit : multi_init.line ≠ ((rows.length : Nat) : Int) := by
    simp only [multi_init]
    omega
  obtain ⟨T, hT⟩ := multi_header_state [(k : Int)] header hheader hquotes
  have hwrites : get_columns_writes (csv_file header (rows.map row_bytes)) [(k : Int)]
      rows.length = row_writes k 0 rows := by
    unfold get_columns_writes multi_scan csv_file
    rw [hsorted, multi_loop_line _ _ header _ hheader multi_init hinit, hT,
      multi_rows_run k k rows.length hk (le_refl _) rows [] 0 T (by omega) hrows]
    simp
  have hbreak : multi_loop_breaks [(k : Int)] rows.length multi_init
      (csv_file header (rows.map row_bytes)) = false := by
    unfold csv_file
    rw [hq1]
    apply multi_loop_breaks_line_full
    simp only [multi_init, hcount]
    omega
  have hline : (multi_loop [(k : Int)] rows.length multi_init
      (csv_file header (rows.map row_bytes))).line = ((rows.length : Nat) : Int) := by
    unfold csv_file
    rw [hq1]
    apply multi_loop_line_full
    simp only [multi_init, hcount]
    omega
  have hreads : ∀ p ∈ get_columns_sorted_reads (csv_file header (rows.map row_bytes))
      [(k : Int)] rows.length, p = 0 := by
    intro p hp
    unfold get_columns_sorted_reads at hp
    rw [hsorted] at hp
    rcases List.mem_append.mp hp with h | h
    · unfold csv_file at h
      rw [multi_loop_reads_header _ _ header _ hheader multi_init rfl hinit, hT] at h
      exact multi_loop_reads_rows k rows.length hk rows [] 0 T (by omega) hrows p h
    · unfold multi_final_reads at h
      rw [hline] at h
      simp at h
  refine ⟨?_, hwrites⟩
  unfold get_columns_defined
  simp only [hsorted, hbreak, hwrites, Bool.not_false, Bool.true_and, Bool.and_eq_true,
    List.all_eq_true, decide_eq_true_eq, List.length_singleton]
  constructor
  · intro p hp
    rw [hreads p hp]
    omega
  · intro w hw
    obtain ⟨h1, h2, h3⟩ := row_writes_bounds k rows 0 w hw
    simp only [Nat.zero_add] at h3
    refine ⟨by simpa using h2, h3, by omega⟩

/-- C18, amended: on a file made of a header line with an even number of quote
bytes (in particular none) and `N ≥ 1` newline-terminated data rows without
quotes with `F ≥ 2` fields each, the fields shorter than 255 bytes, the call of
`get_columns_of_doubles` with the request `[F]` and the budget `N` stays within
defined behaviour and returns one array of `N` entries, and entry `r` is the
conversion of the text of the field at position `F - 1` of data row `r + 1`. -/
theorem multi_last_column_request {V : Type} (strtod : List Nat → V) (header : List Nat)
    (rows : List (List (List Nat))) (k : Nat)
    (hheader : NEWLINE ∉ header) (hquotes : header.count QUOTATION % 2 = 0)
    (hrows : ∀ r ∈ rows, r.length = k ∧ ∀ f ∈ r, f.length < ITEM_SIZE - 1 ∧ plain_field f)
    (hk : 2 ≤ k) (_ : 0 < rows.length) :
    ∃ buf : List (Option V),
      get_columns_result strtod (csv_file header (rows.map row_bytes)) [(k : Int)]
        rows.length = some [some buf] ∧
      buf.length = rows.length ∧
      ∀ r, r < rows.length →
        buf[r]? = some (some (strtod ((rows.getD r []).getD (k - 1) []))) := by
  obtain ⟨hdef, hwrites⟩ := multi_last_column_defined header rows k hheader hquotes hrows hk
  obtain ⟨buf, hb1, hb2, hb3⟩ := apply_row_writes strtod k rows 0
    (List.replicate rows.length none) (by simp)
  refine ⟨buf, ?_, by simpa using hb1, fun r hr => ?_⟩
  · unfold get_columns_result
    rw [if_pos hdef]
    unfold get_columns_writes at hwrites
    unfold get_columns_of_doubles
    simp only [hwrites]
    have halloc : alloc_data V [(k : Int)].length rows.length =
        [List.replicate rows.length none] := rfl
    have hsorted : qsort_comp [(k : Int)] = [(k : Int)] := rfl
    rw [halloc, hb2, hsorted]
    simp [unsort, find_sorted]
  · rw [hb3 r, if_pos ⟨by omega, by omega⟩]
    simp

/-- C18, amended, on the file `a,b,c\n1,2,3\n4,5,6\n` with the request `[3]` and
budget 2: the returned array holds the fields at position 2. -/
theorem multi_last_column_request_witness :
    get_columns_result digits_value (bytes "a,b,c\n1,2,3\n4,5,6\n") [3] 2 =
        some [some [some 3, some 6]] ∧
      ∃ buf : List (Option Nat),
        get_columns_result digits_value
          (csv_file (bytes "a,b,c") ([[[49], [50], [51]], [[52], [53], [54]]].map row_bytes))
          [((3 : Nat) : Int)] ([[[49], [50], [51]], [[52], [53], [54]]] :
            List (List (List Nat))).length = some [some buf] ∧
        buf.length = ([[[49], [50], [51]], [[52], [53], [54]]] : List (List (List Nat))).length ∧
        ∀ r, r < ([[[49], [50], [51]], [[52], [53], [54]]] : List (List (List Nat))).length →
          buf[r]? = some (some (digits_value
            ((([[[49], [50], [51]], [[52], [53], [54]]] : List (List (List Nat))).getD r []).getD
              (3 - 1) []))) :=
  ⟨by decide,
    multi_last_column_request digits_value (bytes "a,b,c")
      [[[49], [50], [51]], [[52], [53], [54]]] 3 (by decide) (by decide) (by decide)
      (by decide) (by decide)⟩

/-- C18 as stated fails when the header line holds one quote byte: on the file
made of the header `"` and the row `1,2`, with the request `[2]` and budget 1,
the quote flag stays open, nothing is written, and entry 0 of the returned
array is not the conversion of the field `2`. -/
theorem multi_single_request_quote_header :
    get_columns_writes (csv_file [QUOTATION] [row_bytes [[49], [50]]]) [2] 1 = [] ∧
      get_columns_of_doubles digits_value (csv_file [QUOTATION] [row_bytes [[49], [50]]]) [2] 1 =
        [some [none]] ∧
      ¬ ∃ buf : List (Option Nat),
        get_columns_of_doubles digits_value (csv_file [QUOTATION] [row_bytes [[49], [50]]])
          [2] 1 = [some buf] ∧
        buf[0]? = some (some (digits_value [50])) := by
  have e : get_columns_of_doubles digits_value (csv_file [QUOTATION] [row_bytes [[49], [50]]])
      [2] 1 = [some [none]] := by decide
  refine ⟨by decide, e, ?_⟩
  rintro ⟨buf, h1, h2⟩
  rw [e] at h1
  simp only [List.cons.injEq, Option.some.injEq, and_true] at h1
  rw [← h1] at h2
  simp at h2

end CsvParse
